import Mathlib

/-!
# Verification of the docopt_fish argv matcher (src/docopt_fish.cpp)

Shallow embedding of the core of `docopt_fish.cpp`: option records and ranges,
the argv tokenizer (`parse_long`, `parse_unseparated_short`, `parse_short`,
`separate_argv_into_options_and_positionals`), the nondeterministic tree
matcher (`match` overloads, `match_options`, `try_match` with progress
filtering), unused-argument computation, best-state selection and map
finalization (`match_argv`, `finalize_option_map`), the doc-section parsing
pipeline (`source_ranges_for_section`, `parse_options_spec`,
`parse_conditions_spec`, `uniqueize_options`, `preflight`) and
`description_for_option`.

Strings are modelled as `List Char` (`Str`); the doc source owns all ranges,
exactly as in the C++ (`range_t` is a half-open `[start, start+length)`
window).  A few leaf helpers of `option_t` live in `docopt_fish_types.h`,
which is not part of this repository snapshot; those (`has_same_name`,
`name_as_string`, `longest_name_as_string`, `has_value`, the type derivation
in the `option_t` constructor, `range_t::merge`) are modelled from the spec
and are marked as such in their doc comments.

Loops of the C++ that are not structurally recursive are given explicit fuel;
in every such case the fuel chosen is provably sufficient (each iteration
consumes at least one character / argv slot), or — for the ellipsis repetition
loop of the matcher, whose termination is itself one of the verified
properties — the fuel is the progress bound `|positionals| + |resolved| +
|suggestion pool| + 2` and the termination theorem shows the loop reaches its
exit condition within that bound.
-/

namespace DocoptFish

/-- Characters of the host string type; the C++ is templated over
`std::string`/`std::wstring`, we model the narrow instantiation. -/
abbrev Str := List Char

/-- `range_t`: a half-open range `[start, start+length)` over the doc text. -/
structure range_t where
  start : Nat
  length : Nat
deriving DecidableEq, Repr, Inhabited

namespace range_t

/-- `range_t::end()` -/
def end_ (r : range_t) : Nat := r.start + r.length

/-- `range_t::empty()` -/
def isEmpty (r : range_t) : Bool := r.length = 0

/-- Modelled from the spec: `range_t::merge` (from `docopt_fish_types.h`,
not in this snapshot) expands a range to cover another; merging with an
empty range leaves the other range unchanged. -/
def merge (r other : range_t) : range_t :=
  if r.isEmpty then other
  else if other.isEmpty then r
  else
    let s := min r.start other.start
    let e := max r.end_ other.end_
    ⟨s, e - s⟩

end range_t

/-- The text of `range` inside source `s` (the C++ reads
`string_t(src, r.start, r.length)`; out-of-range reads are clamped the same
way `std::string(s, pos, len)` clamps). -/
def substr (s : Str) (r : range_t) : Str :=
  (s.drop r.start).take r.length

/-- `option_t::type_t` -/
inductive otype where
  | single_short
  | single_long
  | double_long
deriving DecidableEq, Repr, Inhabited

/-- `option_t::separator_t` -/
inductive osep where
  | sep_space
  | sep_equals
  | sep_none
deriving DecidableEq, Repr, Inhabited

/-- `option_t` (fields as in `docopt_fish_types.h`, visible through their
uses in `docopt_fish.cpp`). -/
structure option_t where
  name : range_t
  value : range_t
  type : otype
  separator : osep
  corresponding_long_name : range_t := ⟨0, 0⟩
  description_range : range_t := ⟨0, 0⟩
  default_value_range : range_t := ⟨0, 0⟩
deriving DecidableEq, Repr, Inhabited

namespace option_t

/-- Modelled from the spec: the `option_t` constructor derives `type` from
the dash count and the name length (one dash + one char = short, one dash +
longer name = single_long, two dashes = double_long). -/
def make (name value : range_t) (dash_count : Nat) (sep : osep) : option_t :=
  { name := name
    value := value
    type := if dash_count > 1 then otype.double_long
            else if name.length = 1 then otype.single_short
            else otype.single_long
    separator := sep }

/-- Modelled from the spec: `option_t::has_value()` — the option expects a
value iff its value range is non-empty. -/
def has_value (o : option_t) : Bool := ¬ o.value.isEmpty

/-- The key range used for name identity: `corresponding_long_name` when
non-empty, else the option's own name (spec §3, "Key-name equality"). -/
def key_range (o : option_t) : range_t :=
  if o.corresponding_long_name.isEmpty then o.name else o.corresponding_long_name

/-- Modelled from the spec: `option_t::has_same_name` — textual comparison
of the key ranges against the shared doc source. -/
def has_same_name (src : Str) (o1 o2 : option_t) : Bool :=
  substr src o1.key_range = substr src o2.key_range

/-- Leading dashes implied by the option type. -/
def dashes (o : option_t) : Str :=
  match o.type with
  | otype.double_long => ['-', '-']
  | _ => ['-']

/-- Modelled from the spec: `option_t::name_as_string` — the option's own
name with its leading dashes. -/
def name_as_string (src : Str) (o : option_t) : Str :=
  o.dashes ++ substr src o.name

/-- Modelled from the spec: `option_t::longest_name_as_string` — the
corresponding long name (a `--` name) when present, else the option's own
name; this is the key under which values are stored in the option map. -/
def longest_name_as_string (src : Str) (o : option_t) : Str :=
  if o.corresponding_long_name.isEmpty then o.name_as_string src
  else ['-', '-'] ++ substr src o.corresponding_long_name

end option_t

/-! ## Character classes and low-level scanning helpers -/

/-- `isspace` on the ASCII characters the C library treats as space. -/
def cIsSpace (c : Char) : Bool :=
  c = ' ' ∨ c = '\t' ∨ c = '\n' ∨ c = '\x0b' ∨ c = '\x0c' ∨ c = '\r'

/-- `char_is_valid_in_parameter`: characters outside `.|<>,=()[] \t\n`. -/
def char_is_valid_in_parameter (c : Char) : Bool :=
  ¬ (c ∈ ['.', '|', '<', '>', ',', '=', '(', ')', '[', ']', ' ', '\t', '\n'])

/-- `char_is_valid_in_bracketed_word`: characters outside `|()[]>\t\n`. -/
def char_is_valid_in_bracketed_word (c : Char) : Bool :=
  ¬ (c ∈ ['|', '(', ')', '[', ']', '>', '\t', '\n'])

/-- ASCII `tolower`. -/
def cToLower (c : Char) : Char :=
  if 'A' ≤ c ∧ c ≤ 'Z' then Char.ofNat (c.toNat + 32) else c

/-- `scan_while(str, remaining, func)`: scans satisfying characters at the
front of `remaining`; returns the scanned range and the updated remaining
range. -/
def scan_while (s : Str) (remaining : range_t) (f : Char → Bool) :
    range_t × range_t :=
  let k := ((substr s remaining).takeWhile f).length
  (⟨remaining.start, k⟩, ⟨remaining.start + k, remaining.length - k⟩)

/-- `scan_1_char(str, remaining, c)`. -/
def scan_1_char (s : Str) (remaining : range_t) (c : Char) :
    range_t × range_t :=
  if remaining.length > 0 ∧ s.get? remaining.start = some c then
    (⟨remaining.start, 1⟩, ⟨remaining.start + 1, remaining.length - 1⟩)
  else
    (⟨remaining.start, 0⟩, remaining)

/-- `trim_whitespace(range, src)`. -/
def trim_whitespace (r : range_t) (src : Str) : range_t :=
  let dropped := ((substr src r).takeWhile cIsSpace).length
  let core := (substr src r).drop dropped
  let dropped2 := (core.reverse.takeWhile cIsSpace).length
  ⟨r.start + dropped, core.length - dropped2⟩

/-! ## Errors -/

/-- The diagnostic codes of §7 (`docopt_fish.h`). -/
inductive ecode where
  | error_excessive_dashes
  | error_excessive_equal_signs
  | error_invalid_variable_name
  | error_invalid_option_name
  | error_bad_option_separator
  | error_missing_close_bracket_in_default
  | error_option_duplicated_in_options_section
  | error_unknown_option
  | error_ambiguous_prefix_match
  | error_option_has_missing_argument
  | error_option_unexpected_argument
  | error_wrong_separator
  | error_missing_usage_section
  | error_excessive_usage_sections
  | error_one_variable_multiple_conditions
deriving DecidableEq, Repr

/-- `error_t`: position, code and (optional) argv index.  `pos = none`
models the `npos` position used for doc-level structural errors. -/
structure err where
  pos : Option Nat
  code : ecode
  arg_index : Option Nat := none
deriving DecidableEq, Repr

/-- `append_error(errors, pos, code, txt)` produces this record. -/
def mkErr (pos : Nat) (code : ecode) : err := ⟨some pos, code, none⟩

/-- `append_argv_error(errors, arg_idx, code, txt, pos_in_arg)`. -/
def mkArgvErr (arg_idx : Nat) (code : ecode) (pos_in_arg : Nat := 0) : err :=
  ⟨some pos_in_arg, code, some arg_idx⟩

/-! ## Parse flags -/

/-- The `parse_flags_t` bits used by the core. -/
structure pflags where
  resolve_unambiguous_prefixes : Bool := false
  short_options_strict_separators : Bool := false
  generate_suggestions : Bool := false
  generate_empty_args : Bool := false
  match_allow_incomplete : Bool := false
deriving DecidableEq, Repr

/-! ## `option_t::parse_from_string` (doc side) and
`parse_option_from_argument` (argv side) -/

/-- `option_t::parse_from_string`: parse one option record out of the
inout range `remaining` of the doc source; returns the option, the updated
remaining range, and appended errors. -/
def parse_from_string (str : Str) (remaining : range_t) :
    option_t × range_t × List err :=
  let start := remaining.start
  let (leading_dash_range, rem1) := scan_while str remaining (· = '-')
  let e1 : List err :=
    if leading_dash_range.length > 2 then [mkErr start ecode.error_excessive_dashes] else []
  let (name_range, rem2) := scan_while str rem1 char_is_valid_in_parameter
  let (space_separator, rem3) := scan_while str rem2 cIsSpace
  let (equals_range, rem4) := scan_while str rem3 (· = '=')
  let e2 : List err :=
    if equals_range.length > 1 then [mkErr equals_range.start ecode.error_excessive_equal_signs] else []
  let (_, rem5) := scan_while str rem4 cIsSpace
  let (open_sign, rem6) := scan_1_char str rem5 '<'
  let parseVar :
      range_t × range_t × List err :=
    if open_sign.isEmpty then (⟨0, 0⟩, rem6, [])
    else
      let (variable_name_range, rem7) := scan_while str rem6 char_is_valid_in_bracketed_word
      let (close_sign, rem8) := scan_1_char str rem7 '>'
      let (vr, ers) : range_t × List err :=
        if variable_name_range.isEmpty then
          (⟨0, 0⟩, [mkErr variable_name_range.start ecode.error_invalid_variable_name])
        else if close_sign.isEmpty then
          (⟨0, 0⟩, [mkErr open_sign.start ecode.error_invalid_variable_name])
        else
          (((⟨0, 0⟩ : range_t).merge open_sign).merge variable_name_range |>.merge close_sign, [])
      let ers2 : List err :=
        if ¬ close_sign.isEmpty ∧ ¬ rem8.isEmpty ∧
            char_is_valid_in_parameter (str.getD rem8.start ' ') then
          ers ++ [mkErr rem8.start ecode.error_invalid_variable_name]
        else ers
      (vr, rem8, ers2)
  let variable_range := parseVar.1
  let remFinal := parseVar.2.1
  let e3 := parseVar.2.2
  let e4 : List err :=
    if variable_range.isEmpty ∧ ¬ equals_range.isEmpty then
      [mkErr equals_range.start ecode.error_invalid_variable_name]
    else []
  let separator : osep :=
    if variable_range.isEmpty then osep.sep_space
    else if ¬ equals_range.isEmpty then osep.sep_equals
    else if ¬ space_separator.isEmpty then osep.sep_space
    else osep.sep_none
  let e5 : List err :=
    if separator = osep.sep_none ∧ (leading_dash_range.length > 1 ∨ name_range.length > 1) then
      [mkErr name_range.start ecode.error_bad_option_separator]
    else []
  let e6 : List err :=
    if name_range.isEmpty then [mkErr name_range.start ecode.error_invalid_option_name] else []
  (option_t.make name_range variable_range leading_dash_range.length separator,
   remFinal, e1 ++ e2 ++ e3 ++ e4 ++ e5 ++ e6)

/-- `parse_option_from_argument(str, errors)`: parse an argv token of the
form `--name[=value]` into an option whose ranges point into the token. -/
def parse_option_from_argument (str : Str) : option_t :=
  let remaining : range_t := ⟨0, str.length⟩
  let (leading_dash_range, rem1) := scan_while str remaining (· = '-')
  let (name_range, rem2) := scan_while str rem1 char_is_valid_in_parameter
  let (equals_range, rem3) := scan_1_char str rem2 '='
  let value_range : range_t := if ¬ equals_range.isEmpty then rem3 else ⟨0, 0⟩
  option_t.make name_range value_range leading_dash_range.length
    (if equals_range.isEmpty then osep.sep_space else osep.sep_equals)

/-! ## Argv tokenization -/

/-- `positional_argument_t` is just an index into argv; we use `Nat`. -/
abbrev positional_argument_t := Nat

/-- `resolved_option_t`: an option occurrence in argv.  `value_idx_in_argv`
is `none` for the C++ `npos` sentinel. -/
structure resolved_option_t where
  option : option_t
  name_idx_in_argv : Nat
  value_idx_in_argv : Option Nat
  value_range_in_arg : range_t
deriving DecidableEq, Repr, Inhabited

/-- `range_equals_string(range, str, start_in_str, len_in_str)`: the given
range of the doc source equals the given portion of `s` (with the C++
clamping of `len_in_str` to `s.size() - start_in_str`). -/
def range_equals_string (src : Str) (r : range_t) (s : Str)
    (start_in_str : Nat := 0) (len_in_str : Option Nat := none) : Bool :=
  let len := match len_in_str with
    | none => s.length - start_in_str
    | some l => min l (s.length - start_in_str)
  r.length = len ∧ substr src r = (s.drop start_in_str).take len

/-- Result of one of the option-from-argv parsers (`parse_long`,
`parse_unseparated_short`, `parse_short`): success flag, the resolved
options appended to `out_result`, the final value of `*idx`, the errors
appended to `out_errors` (in order), and any `out_suggestion` assignment. -/
structure ArgParse where
  success : Bool
  resolved : List resolved_option_t
  next_idx : Nat
  errors : List err
  suggestion : Option Str := none
deriving DecidableEq, Repr

/-- The tail of `parse_long` once the (unique) catalog match is known:
value agreement, optional consumption of the next argv slot, suggestion
generation, and the strict-separator check. -/
def parse_long_process (src : Str) (argv : List Str) (flags : pflags)
    (idx : Nat) (want_sugg : Bool) (mtch : option_t) (aao : option_t) : ArgParse :=
  -- Value agreement; `cur` tracks the C++ `*idx` which may be advanced when
  -- the value is taken from the next argv slot.
  let step1 : Bool × range_t × Option Nat × Nat × List err × Option Str :=
    if mtch.has_value then
      if aao.has_value then
        (false, aao.value, some idx, idx, [], none)
      else if idx + 1 < argv.length then
        (false, ⟨0, (argv.getD (idx + 1) []).length⟩, some (idx + 1), idx + 1, [], none)
      else if flags.generate_suggestions ∧ want_sugg then
        (true, ⟨0, 0⟩, none, idx, [], some (substr src mtch.value))
      else
        (true, ⟨0, 0⟩, none, idx,
         [mkArgvErr idx ecode.error_option_has_missing_argument], none)
    else if aao.has_value then
      (true, ⟨0, 0⟩, none, idx,
       [mkArgvErr idx ecode.error_option_unexpected_argument], none)
    else
      (false, ⟨0, 0⟩, none, idx, [], none)
  let errored := step1.1
  let value_range := step1.2.1
  let arg_index := step1.2.2.1
  let cur := step1.2.2.2.1
  let errs := step1.2.2.2.2.1
  let sugg := step1.2.2.2.2.2
  -- Strict separator agreement (note: the C++ reports this at the already
  -- advanced `*idx`).
  let step2 : Bool × List err :=
    if ¬ errored ∧ flags.short_options_strict_separators then
      if aao.separator ≠ mtch.separator then
        (true, errs ++ [mkArgvErr cur ecode.error_wrong_separator])
      else (errored, errs)
    else (errored, errs)
  let errored := step2.1
  let errs := step2.2
  if ¬ errored then
    { success := true
      resolved := [⟨mtch, idx, arg_index, value_range⟩]
      next_idx := cur + 1
      errors := errs
      suggestion := sugg }
  else
    { success := false, resolved := [], next_idx := cur, errors := errs,
      suggestion := sugg }

/-- The argument reparsed as an option, with the "hacktastic" stomp of
`parse_long`: a one-char single-dash arg parses as a short but may be
requested as a single long. -/
def arg_as_option (arg : Str) (type : otype) : option_t :=
  let aao0 := parse_option_from_argument arg
  if type = otype.single_long ∧ aao0.type = otype.single_short then
    { aao0 with type := otype.single_long } else aao0

/-- The exact-name matches of `parse_long` (lines 923–932): catalog options
of the requested type whose name text equals the arg's name portion. -/
def exact_matches (src : Str) (arg : Str) (type : otype)
    (options : List option_t) : List option_t :=
  options.filter (fun opt =>
    opt.type = type ∧
    range_equals_string src opt.name arg (arg_as_option arg type).name.start
      (some (arg_as_option arg type).name.length))

/-- The unambiguous-prefix candidates of `parse_long` (lines 936–945):
catalog options of the requested type whose name strictly extends the
arg's name. -/
def prefix_match_list (src : Str) (arg : Str) (type : otype)
    (options : List option_t) : List option_t :=
  options.filter (fun opt =>
    opt.type = type ∧
    opt.name.length > (arg_as_option arg type).name.length ∧
    substr src ⟨opt.name.start, (arg_as_option arg type).name.length⟩ =
      (arg.drop (arg_as_option arg type).name.start).take
        (arg_as_option arg type).name.length)

/-- `parse_long(argv, type, flags, idx, options, ...)`. -/
def parse_long (src : Str) (argv : List Str) (type : otype) (flags : pflags)
    (idx : Nat) (options : List option_t) (want_sugg : Bool) : ArgParse :=
  let arg := argv.getD idx []
  let aao := arg_as_option arg type
  let exact := exact_matches src arg type options
  let sel : List option_t × List err :=
    if exact.isEmpty ∧ flags.resolve_unambiguous_prefixes then
      let pm := prefix_match_list src arg type options
      if pm.length > 1 then
        (exact, [mkArgvErr idx ecode.error_ambiguous_prefix_match])
      else if pm.length = 1 then (pm, [])
      else (exact, [])
    else (exact, [])
  match sel.1 with
  | [] =>
    { success := false, resolved := [], next_idx := idx,
      errors := sel.2 ++ [mkArgvErr idx ecode.error_unknown_option],
      suggestion := none }
  | m :: _ =>
    let pr := parse_long_process src argv flags idx want_sugg m aao
    { pr with errors := sel.2 ++ pr.errors }

/-- `parse_unseparated_short(argv, flags, idx, options, ...)`: `-DNDEBUG`
style short options whose value is glued to the name. -/
def parse_unseparated_short (src : Str) (argv : List Str) (flags : pflags)
    (idx : Nat) (options : List option_t) : ArgParse :=
  let arg := argv.getD idx []
  let relaxed := ¬ flags.short_options_strict_separators
  let mts := options.filter (fun opt =>
      opt.type = otype.single_short ∧ opt.has_value ∧
      (relaxed ∨ opt.separator = osep.sep_none) ∧
      range_equals_string src opt.name arg 1 (some 1))
  match mts with
  | [] => { success := false, resolved := [], next_idx := idx, errors := [] }
  | m :: _ =>
    if arg.length ≤ 2 then
      { success := false, resolved := [], next_idx := idx,
        errors := [mkArgvErr idx ecode.error_option_has_missing_argument] }
    else
      { success := true
        resolved := [⟨m, idx, some idx, ⟨2, arg.length - 2⟩⟩]
        next_idx := idx + 1
        errors := [] }

/-- The first loop of `parse_short`: walk the characters of the arg past
the dash; each must name a known short option; stop at the first unknown
one with an `error_unknown_option` at that position.  The loop advances
one character per iteration, so fuel `|arg|` (from position 1) covers it. -/
def ps_collect (src : Str) (argv_idx : Nat) (arg : Str)
    (options : List option_t) :
    Nat → Nat → List option_t → List option_t × List err × Bool
  | 0, _, acc => (acc, [], false)
  | fuel + 1, i, acc =>
    if i < arg.length then
      let mts := options.filter (fun opt =>
          opt.type = otype.single_short ∧
          range_equals_string src opt.name arg i (some 1))
      match mts with
      | [] => (acc, [mkArgvErr argv_idx ecode.error_unknown_option i], true)
      | m :: _ => ps_collect src argv_idx arg options fuel (i + 1) (acc ++ [m])
    else (acc, [], false)

/-- `parse_short(argv, flags, idx, options, ...)`: combined short options
`-xyz`, only the last of which may take a (separate) value. -/
def parse_short (src : Str) (argv : List Str) (flags : pflags) (idx : Nat)
    (options : List option_t) (want_sugg : Bool) : ArgParse :=
  let arg := argv.getD idx []
  let col := ps_collect src idx arg options arg.length 1 []
  let ofa := col.1
  let e1 := col.2.1
  let errored := col.2.2
  -- Check that only the last option takes a value.  Note the C++ appends
  -- `error_option_unexpected_argument` here without setting `errored`.
  let last_option_has_argument :=
    ¬ errored ∧ ofa ≠ [] ∧ (ofa.getLastD default).has_value
  let e2 : List err :=
    if ¬ errored then
      ((List.range ofa.length).filter (fun i =>
          (ofa.getD i default).has_value ∧ i + 1 ≠ ofa.length)).map
        (fun i => mkArgvErr idx ecode.error_option_unexpected_argument (i + 1))
    else []
  -- Find the value for the last option, if any.
  let step3 : Bool × range_t × Option Nat × List err × Option Str :=
    if ¬ errored ∧ last_option_has_argument then
      if idx + 1 < argv.length then
        (false, ⟨0, (argv.getD (idx + 1) []).length⟩, some (idx + 1), [], none)
      else if flags.generate_suggestions ∧ want_sugg then
        (true, ⟨0, 0⟩, none, [],
         some (substr src (ofa.getLastD default).value))
      else
        (true, ⟨0, 0⟩, none,
         [mkArgvErr idx ecode.error_option_has_missing_argument], none)
    else (errored, ⟨0, 0⟩, none, [], none)
  let errored := step3.1
  let val_range := step3.2.1
  let val_idx := step3.2.2.1
  let e3 := step3.2.2.2.1
  let sugg := step3.2.2.2.2
  if ¬ errored then
    { success := true
      resolved := (List.range ofa.length).map (fun i =>
        if i + 1 = ofa.length ∧ last_option_has_argument then
          ⟨ofa.getD i default, idx, val_idx, val_range⟩
        else ⟨ofa.getD i default, idx, none, ⟨0, 0⟩⟩)
      next_idx := idx + (if last_option_has_argument then 2 else 1)
      errors := e1 ++ e2 ++ e3
      suggestion := sugg }
  else
    { success := false, resolved := [], next_idx := idx,
      errors := e1 ++ e2 ++ e3, suggestion := sugg }

/-- The effect of one iteration of the
`separate_argv_into_options_and_positionals` loop at index `idx < |argv|`:
positionals and resolved options appended, errors appended at the end of
`out_errors`, errors inserted at the *front* of `out_errors` (the
all-branches-failed case for single-dash args), the new index, the new
suggestion (if assigned), and whether the `--` early exit fired. -/
structure SepStep where
  positionals : List Nat
  resolved : List resolved_option_t
  errs_appended : List err
  errs_prepended : List err
  next_idx : Nat
  suggestion : Option Str
  stop : Bool
deriving DecidableEq, Repr

/-- One iteration of the tokenizer dispatch loop (lines 1169–1216). -/
def sep_step (src : Str) (argv : List Str) (options : List option_t)
    (flags : pflags) (want_sugg : Bool) (idx : Nat) : SepStep :=
  let arg := argv.getD idx []
  if arg = ['-', '-'] then
    -- Literal `--`: everything remaining is positional.
    { positionals := (List.range argv.length).filter (fun j => idx < j)
      resolved := [], errs_appended := [], errs_prepended := []
      next_idx := argv.length, suggestion := none, stop := true }
  else if arg.take 2 = ['-', '-'] then
    -- Leading long option.
    let pl := parse_long src argv otype.double_long flags idx options want_sugg
    if pl.success then
      { positionals := [], resolved := pl.resolved, errs_appended := pl.errors
        errs_prepended := [], next_idx := pl.next_idx,
        suggestion := pl.suggestion, stop := false }
    else
      { positionals := [], resolved := [], errs_appended := pl.errors
        errs_prepended := [], next_idx := pl.next_idx + 1,
        suggestion := pl.suggestion, stop := false }
  else if arg.take 1 = ['-'] ∧ arg.length > 1 then
    -- Single-dash: try long, then unseparated short, then combined short;
    -- only report the cached errors if every branch fails, short first.
    -- The C++ threads one cursor (`&idx`) and one suggestion buffer
    -- (`out_suggestion`) through all three parsers: a failing `parse_long`
    -- may have advanced the cursor (taking a space-separated value before
    -- failing on `error_wrong_separator`), so the short parsers run at
    -- `pl.next_idx`, the total-failure skip advances from there, and a
    -- suggestion `parse_long` wrote survives unless a later parser
    -- overwrites it.
    let pl := parse_long src argv otype.single_long flags idx options want_sugg
    if pl.success then
      { positionals := [], resolved := pl.resolved, errs_appended := []
        errs_prepended := [], next_idx := pl.next_idx,
        suggestion := pl.suggestion, stop := false }
    else
      let pu := parse_unseparated_short src argv flags pl.next_idx options
      if pu.success then
        { positionals := [], resolved := pu.resolved, errs_appended := []
          errs_prepended := [], next_idx := pu.next_idx,
          suggestion := pl.suggestion, stop := false }
      else
        let ps := parse_short src argv flags pl.next_idx options want_sugg
        if ps.success then
          { positionals := [], resolved := ps.resolved, errs_appended := []
            errs_prepended := [], next_idx := ps.next_idx,
            suggestion := (match ps.suggestion with
              | some sg => some sg
              | none => pl.suggestion)
            stop := false }
        else
          { positionals := [], resolved := []
            errs_appended := []
            errs_prepended := (pu.errors ++ ps.errors) ++ pl.errors
            next_idx := ps.next_idx + 1
            suggestion := (match ps.suggestion with
              | some sg => some sg
              | none => pl.suggestion)
            stop := false }
  else
    { positionals := [idx], resolved := [], errs_appended := []
      errs_prepended := [], next_idx := idx + 1, suggestion := none,
      stop := false }

/-- The accumulated outputs of `separate_argv_into_options_and_positionals`. -/
structure SepResult where
  positionals : List Nat
  resolved : List resolved_option_t
  errors : List err
  suggestion : Option Str
deriving DecidableEq, Repr

/-- The tokenizer loop.  Every iteration advances `idx` by at least one, so
fuel `|argv| + 1` always reaches the exit condition. -/
def sep_loop (src : Str) (argv : List Str) (options : List option_t)
    (flags : pflags) (want_sugg : Bool) :
    Nat → Nat → SepResult → SepResult
  | 0, _, acc => acc
  | fuel + 1, idx, acc =>
    if idx < argv.length then
      let st := sep_step src argv options flags want_sugg idx
      let acc' : SepResult :=
        { positionals := acc.positionals ++ st.positionals
          resolved := acc.resolved ++ st.resolved
          errors := st.errs_prepended ++ acc.errors ++ st.errs_appended
          suggestion := match st.suggestion with
            | some s => some s
            | none => acc.suggestion }
      if st.stop then acc'
      else sep_loop src argv options flags want_sugg fuel st.next_idx acc'
    else acc

/-- `separate_argv_into_options_and_positionals(argv, options, flags, ...)`. -/
def separate_argv (src : Str) (argv : List Str) (options : List option_t)
    (flags : pflags) (want_sugg : Bool) : SepResult :=
  sep_loop src argv options flags want_sugg (argv.length + 1) 0
    ⟨[], [], [], none⟩

/-! ## Match states and the option map -/

/-- `base_argument_t`: a count and ordered list of value strings. -/
structure arg_t where
  count : Nat := 0
  values : List Str := []
deriving DecidableEq, Repr, Inhabited

/-- `option_map_t` (`std::map<string_t, base_argument_t>`), modelled as an
association list with unique keys (first binding wins). -/
abbrev omap := List (Str × arg_t)

/-- Lookup in the option map. -/
def omLookup (m : omap) (k : Str) : Option arg_t :=
  (m.find? (fun p => p.1 = k)).map Prod.snd

/-- `map[name]` read: the bound argument, or a default-constructed one. -/
def omGetD (m : omap) (k : Str) : arg_t := (omLookup m k).getD {}

/-- Store a binding, replacing an existing one for the same key in place
(appending otherwise); this models mutation through `map[name]`. -/
def omSet : omap → Str → arg_t → omap
  | [], k, v => [(k, v)]
  | p :: rest, k, v => if p.1 = k then (k, v) :: rest else p :: omSet rest k v

/-- `map[name];` for its insert-if-absent side effect only. -/
def omEnsure (m : omap) (k : Str) : omap := omSet m k (omGetD m k)

/-- The number of set bits of the consumed-options bitset
(`std::accumulate` over a `vector<bool>`). -/
def countTrues (l : List Bool) : Nat := (l.filter id).length

/-- `match_state_t`. -/
structure match_state_t where
  option_map : omap := []
  next_positional_index : Nat := 0
  consumed_options : List Bool := []
  suggested_next_arguments : Finset Str := ∅
deriving DecidableEq, Inhabited

/-- `match_state_t::progress()`: positionals consumed + options consumed +
number of suggestions. -/
def match_state_t.progress (s : match_state_t) : Nat :=
  s.next_positional_index + countTrues s.consumed_options +
    s.suggested_next_arguments.card

/-- `match_context_t` together with the `docopt_impl` members the matcher
reads (`source`, `shortcut_options`).  The transient
`is_in_square_brackets` flag is passed separately through the matcher.
`pool` is not a C++ field: it is the finite universe of strings the matcher
can ever insert into `suggested_next_arguments`, and feeds only the fuel
bound of the ellipsis repetition loop (whose termination is proved below). -/
structure mctx where
  flags : pflags
  positionals : List Nat
  resolved_options : List resolved_option_t
  argv : List Str
  shortcut_options : List option_t
  src : Str
  pool : Finset Str
deriving DecidableEq

/-- `match_context_t::has_more_positionals`. -/
def mctx.has_more_positionals (ctx : mctx) (s : match_state_t) : Bool :=
  s.next_positional_index < ctx.positionals.length

/-- `match_context_t::next_positional` (the argv index it designates). -/
def mctx.next_positional (ctx : mctx) (s : match_state_t) : Nat :=
  ctx.positionals.getD s.next_positional_index 0

/-! ## The usage tree

The grammar parser that produces this tree lives outside this repository
snapshot (`docopt_fish_grammar.h`); the matcher reads the node shapes below
(see the `match` overloads).  Following the spec's design note §9 the typed
nodes are expressed as one tagged union. -/

/-- Usage-tree nodes, one constructor per C++ node class.  `Option`
children model the nullable `auto_ptr` fields tested by `try_match`. -/
inductive node where
  | usage (prog_name : range_t) (alternation_list : Option node)
      (next_usage : Option node)
  | expression_list (expression : Option node)
      (opt_expression_list : Option node)
  | opt_expression_list (expression_list : Option node)
  | alternation_list (expression_list : Option node)
      (or_continuation : Option node)
  | or_continuation (alternation_list : Option node)
  | expression (production : Nat) (has_ellipsis : Bool)
      (simple_clause : Option node) (alternation_list : Option node)
  | simple_clause (option_clause : Option node) (fixed_clause : Option node)
      (variable_clause : Option node)
  | option_clause (option : option_t)
  | fixed_clause (word : range_t)
  | variable_clause (word : range_t)

mutual

/-- Depth of a usage-tree node; `ndepth tree + 1` is enough matcher fuel,
since `matchNode` descends one level per recursive call. -/
def ndepth : node → Nat
  | node.usage _ al nu => 1 + max (ndepthO al) (ndepthO nu)
  | node.expression_list e oel => 1 + max (ndepthO e) (ndepthO oel)
  | node.opt_expression_list el => 1 + ndepthO el
  | node.alternation_list el oc => 1 + max (ndepthO el) (ndepthO oc)
  | node.or_continuation al => 1 + ndepthO al
  | node.expression _ _ sc al => 1 + max (ndepthO sc) (ndepthO al)
  | node.simple_clause oc fc vc =>
      1 + max (ndepthO oc) (max (ndepthO fc) (ndepthO vc))
  | node.option_clause _ => 1
  | node.fixed_clause _ => 1
  | node.variable_clause _ => 1

/-- `ndepth` through an optional child. -/
def ndepthO : Option node → Nat
  | none => 0
  | some n => ndepth n

end

mutual

/-- Every string the matcher can insert into a state's
`suggested_next_arguments` while walking this node (option names of
`option_clause`s, fixed words, variable words). -/
def nodeSuggList (src : Str) : node → List Str
  | node.usage _ al nu => nodeSuggListO src al ++ nodeSuggListO src nu
  | node.expression_list e oel => nodeSuggListO src e ++ nodeSuggListO src oel
  | node.opt_expression_list el => nodeSuggListO src el
  | node.alternation_list el oc => nodeSuggListO src el ++ nodeSuggListO src oc
  | node.or_continuation al => nodeSuggListO src al
  | node.expression _ _ sc al => nodeSuggListO src sc ++ nodeSuggListO src al
  | node.simple_clause oc fc vc =>
      nodeSuggListO src oc ++ nodeSuggListO src fc ++ nodeSuggListO src vc
  | node.option_clause o => [o.name_as_string src]
  | node.fixed_clause w => [substr src w]
  | node.variable_clause w => [substr src w]

/-- `nodeSuggList` through an optional child. -/
def nodeSuggListO (src : Str) : Option node → List Str
  | none => []
  | some n => nodeSuggList src n

end

/-! ## `match_options` -/

/-- The inner search of `match_options`: the first resolved option (argv
side) that is not yet consumed and has the same name as the doc option. -/
def find_matching_resolved (src : Str) (resolved : List resolved_option_t)
    (consumed : List Bool) (opt : option_t) : Option Nat :=
  (List.range resolved.length).find? (fun i =>
    consumed.getD i false = false ∧
    option_t.has_same_name src (resolved.getD i default).option opt)

/-- The state update when `match_options` finds an unconsumed resolved
option for the doc option `opt` at index `i` (lines 1603–1618): record the
value (if any) under the option's longest name, bump the count, and mark
the resolved option consumed. -/
def mo_consume (ctx : mctx) (opt : option_t) (s : match_state_t) (i : Nat) :
    match_state_t :=
  let ro := ctx.resolved_options.getD i default
  let name := opt.longest_name_as_string ctx.src
  let a := omGetD s.option_map name
  let a := match ro.value_idx_in_argv with
    | some vi =>
      { a with values := a.values ++
          [substr (ctx.argv.getD vi []) ro.value_range_in_arg] }
    | none => a
  let a := { a with count := a.count + 1 }
  { s with
    option_map := omSet s.option_map name a
    consumed_options := s.consumed_options.set i true }

/-- The main loop of `match_options`, threading the state, the list of
matched key ranges, the staged potential suggestions and the
`successful_match` flag. -/
def mo_loop (ctx : mctx) :
    List option_t → match_state_t → List range_t → List option_t → Bool →
    match_state_t × List range_t × List option_t × Bool
  | [], s, mlr, ps, sm => (s, mlr, ps, sm)
  | opt :: rest, s, mlr, ps, sm =>
    if ¬ opt.corresponding_long_name.isEmpty ∧
        opt.corresponding_long_name ∈ mlr then
      -- key range already used by an earlier alias
      mo_loop ctx rest s mlr ps sm
    else
      match find_matching_resolved ctx.src ctx.resolved_options
          s.consumed_options opt with
      | some i =>
        let mlr' := if ¬ opt.corresponding_long_name.isEmpty then
            mlr ++ [opt.corresponding_long_name] else mlr
        mo_loop ctx rest (mo_consume ctx opt s i) mlr' ps true
      | none =>
        let ps' := if ctx.flags.generate_suggestions then ps ++ [opt] else ps
        mo_loop ctx rest s mlr ps' sm

/-- The suggestion-staging pass after the loop (lines 1631–1642): insert
the names of staged options whose key is not among the matched key ranges;
the Boolean records `made_suggestion`. -/
def mo_suggest (ctx : mctx) (mlr : List range_t) (ps : List option_t)
    (s1 : match_state_t) : match_state_t × Bool :=
  if ctx.flags.generate_suggestions then
    ps.foldl (fun acc sug =>
      if sug.corresponding_long_name.isEmpty ∨
          sug.corresponding_long_name ∉ mlr then
        let sg := insert (sug.name_as_string ctx.src)
          acc.1.suggested_next_arguments
        ({ acc.1 with suggested_next_arguments := sg }, true)
      else acc) (s1, false)
  else (s1, false)

/-- `match_options(options_in_doc, state, ctx)`: returns the successor
state iff at least one option matched or a suggestion was made. -/
def match_options (ctx : mctx) (options_in_doc : List option_t)
    (s : match_state_t) : List match_state_t :=
  let r := mo_loop ctx options_in_doc s [] [] false
  let sugres := mo_suggest ctx r.2.1 r.2.2.1 r.1
  if r.2.2.2 ∨ sugres.2 then [sugres.1] else []

/-! ## The tree matcher -/

/-- `try_match(ptr, state_list, ctx, true)`: match each state, keeping only
child states whose `progress()` changed (line 1391–1401 erases the ones
whose progress is unchanged). -/
def tryMatchReqFn (childMatch : match_state_t → List match_state_t)
    (states : List match_state_t) : List match_state_t :=
  states.flatMap (fun s =>
    (childMatch s).filter (fun t => t.progress ≠ s.progress))

/-- The ellipsis repetition loop (the `while (!intermediate_states.empty())`
loops of `match(expression_t)`): repeatedly re-apply the child under the
strict-progress filter, accumulating every generation.  The C++ loop is
unbounded; here it carries fuel, and the termination theorem below shows
the fuel used by the matcher always reaches the empty-intermediate exit. -/
def ellipLoopFn (childMatch : match_state_t → List match_state_t) :
    Nat → List match_state_t → List match_state_t
  | 0, _ => []
  | fuel + 1, inter =>
    if inter.isEmpty then []
    else
      let next := tryMatchReqFn childMatch inter
      next ++ ellipLoopFn childMatch fuel next

/-- Fuel for the ellipsis loop: one more than the maximum possible
`progress()` of any state whose suggestions stay inside `ctx.pool`. -/
def loopFuel (ctx : mctx) : Nat :=
  ctx.positionals.length + ctx.resolved_options.length + ctx.pool.card + 2

/-- The `match` overloads of `docopt_impl`, as one function dispatching on
the node kind (spec §9).  `isb` is the context's `is_in_square_brackets`
(saved and restored around the bracket/paren productions in the C++; here
simply passed by value).  The `fuel` argument decreases at every recursive
call; since each call descends one level into the tree, any fuel exceeding
the tree depth (the matcher uses `sizeOf tree + 1`) gives the C++
semantics. -/
def matchNode (ctx : mctx) : Nat → Bool → node → match_state_t →
    List match_state_t
  | 0, _, _, _ => []
  | fuel + 1, isb, n, s =>
    match n with
    | node.usage prog al nu =>
      if ¬ ctx.has_more_positionals s then []
      else if prog.isEmpty then []
      else
        let copied := s
        let s1 := { s with
          next_positional_index := s.next_positional_index + 1 }
        let main : List match_state_t :=
          match al with
          | some a => matchNode ctx fuel isb a s1
          | none => [s1]
        let nxt : List match_state_t :=
          match nu with
          | some u => matchNode ctx fuel isb u copied
          | none => []
        main ++ nxt
    | node.expression_list e oel =>
      let intermed : List match_state_t :=
        match e with
        | some en => matchNode ctx fuel isb en s
        | none => []
      match oel with
      | some ol => intermed.flatMap (fun st => matchNode ctx fuel isb ol st)
      | none => []
    | node.opt_expression_list el =>
      match el with
      | some l => matchNode ctx fuel isb l s
      | none => [s]
    | node.alternation_list el oc =>
      (match el with
       | some l => matchNode ctx fuel isb l s
       | none => []) ++
      (match oc with
       | some c => matchNode ctx fuel isb c s
       | none => [])
    | node.or_continuation al =>
      match al with
      | some a => matchNode ctx fuel isb a s
      | none => []
    | node.expression production ell sc al =>
      if production = 0 then
        -- simple clause, possibly with ellipsis
        let cm := fun st =>
          match sc with
          | some c => matchNode ctx fuel isb c st
          | none => []
        let r := cm s
        if ell then r ++ ellipLoopFn cm (loopFuel ctx) r else r
      else if production = 1 then
        -- parenthesized group: is_in_square_brackets := false
        let cm := fun st =>
          match al with
          | some a => matchNode ctx fuel false a st
          | none => []
        let r := cm s
        if ell then r ++ ellipLoopFn cm (loopFuel ctx) r else r
      else if production = 2 then
        -- square brackets: is_in_square_brackets := true, plus the
        -- not-taken branch appended at the end
        let not_taken := s
        let cm := fun st =>
          match al with
          | some a => matchNode ctx fuel true a st
          | none => []
        let r := cm s
        let r := if ell then r ++ ellipLoopFn cm (loopFuel ctx) r else r
        r ++ [not_taken]
      else if production = 3 then
        -- the [options] shortcut
        let r := match_options ctx ctx.shortcut_options s
        if r.isEmpty then
          let s' :=
            if ctx.flags.generate_suggestions then
              let sg := ctx.shortcut_options.foldl (fun acc opt =>
                insert (opt.name_as_string ctx.src) acc)
                s.suggested_next_arguments
              { s with suggested_next_arguments := sg }
            else s
          [s']
        else r
      else []
    | node.simple_clause oc fc vc =>
      match oc with
      | some o => matchNode ctx fuel isb o s
      | none =>
        match fc with
        | some f => matchNode ctx fuel isb f s
        | none =>
          match vc with
          | some v => matchNode ctx fuel isb v s
          | none => []
    | node.option_clause opt =>
      let r := match_options ctx [opt] s
      if r.isEmpty then
        let s' :=
          if ctx.flags.generate_suggestions then
            let sg := insert (opt.name_as_string ctx.src)
              s.suggested_next_arguments
            { s with suggested_next_arguments := sg }
          else s
        if isb ∨ ctx.flags.match_allow_incomplete then [s'] else []
      else r
    | node.fixed_clause w =>
      if ctx.has_more_positionals s then
        let pidx := ctx.next_positional s
        let name := ctx.argv.getD pidx []
        if name.length = w.length ∧ range_equals_string ctx.src w name then
          let a := omGetD s.option_map name
          let s' := { s with
            option_map := omSet s.option_map name { a with count := a.count + 1 }
            next_positional_index := s.next_positional_index + 1 }
          [s']
        else []
      else
        let s' :=
          if ctx.flags.generate_suggestions then
            let sg := insert (substr ctx.src w) s.suggested_next_arguments
            { s with suggested_next_arguments := sg }
          else s
        if ctx.flags.match_allow_incomplete then [s'] else []
    | node.variable_clause w =>
      if ctx.has_more_positionals s then
        let name := substr ctx.src w
        let a := omGetD s.option_map name
        let pidx := ctx.next_positional s
        let a := { a with values := a.values ++ [ctx.argv.getD pidx []] }
        [{ s with
            option_map := omSet s.option_map name a
            next_positional_index := s.next_positional_index + 1 }]
      else
        let s' :=
          if ctx.flags.generate_suggestions then
            let sg := insert (substr ctx.src w) s.suggested_next_arguments
            { s with suggested_next_arguments := sg }
          else s
        if ctx.flags.match_allow_incomplete then [s'] else []

/-! ## Unused arguments, best-state selection, finalization -/

/-- Phase 2 of `unused_arguments`: a consumed resolved option marks its
name slot (and value slot, when any) as used. -/
def mark_used (ctx : mctx) (s : match_state_t) (u : List Bool) (i : Nat) :
    List Bool :=
  if s.consumed_options.getD i false then
    match ctx.resolved_options[i]? with
    | some ro =>
      let u' := u.set ro.name_idx_in_argv true
      match ro.value_idx_in_argv with
      | some vi => u'.set vi true
      | none => u'
    | none => u
  else u

/-- Phase 3 of `unused_arguments`: an *unconsumed* resolved option clears
the used bit of its name slot. -/
def unmark_unconsumed (ctx : mctx) (s : match_state_t) (u : List Bool)
    (i : Nat) : List Bool :=
  if ¬ s.consumed_options.getD i false then
    match ctx.resolved_options[i]? with
    | some ro => u.set ro.name_idx_in_argv false
    | none => u
  else u

/-- `match_context_t::unused_arguments(state)`: mark used positionals and
the slots of consumed options, then *unmark* the name slots of unconsumed
resolved options, and collect the unmarked indices. -/
def unused_arguments (ctx : mctx) (s : match_state_t) : List Nat :=
  let u0 := List.replicate ctx.argv.length false
  let u1 := (ctx.positionals.take s.next_positional_index).foldl
    (fun u p => u.set p true) u0
  let u2 := (List.range s.consumed_options.length).foldl (mark_used ctx s) u1
  let u3 := (List.range s.consumed_options.length).foldl
    (unmark_unconsumed ctx s) u2
  (List.range ctx.argv.length).filter (fun i => ¬ u3.getD i true)

/-- The best-state selection loop of `match_argv` (lines 1803–1817): first
index minimizing the number of unused arguments, with an early exit at
zero. -/
def selectLoop (ctx : mctx) :
    List match_state_t → Nat → Nat → List Nat → Nat × List Nat
  | [], _, bi, bu => (bi, bu)
  | s :: rest, i, bi, bu =>
    let unused := unused_arguments ctx s
    if i = 0 ∨ unused.length < bu.length then
      if unused.length = 0 then (i, unused)
      else selectLoop ctx rest (i + 1) i unused
    else selectLoop ctx rest (i + 1) bi bu

/-- `finalize_option_map(map, all_options, all_variables, flags)` (which
also reads the member `all_static_arguments`). -/
def finalize_option_map (src : Str) (map : omap) (all_options : List option_t)
    (all_variables all_static_arguments : List range_t) (flags : pflags) :
    omap :=
  if ¬ flags.generate_empty_args then map
  else
    let m1 := all_options.foldl (fun m opt =>
      let name := opt.longest_name_as_string src
      let a := omGetD m name
      let a := if ¬ opt.default_value_range.isEmpty ∧ a.values.isEmpty then
          { a with values := [substr src opt.default_value_range] }
        else a
      omSet m name a) map
    let m2 := all_variables.foldl (fun m r => omEnsure m (substr src r)) m1
    all_static_arguments.foldl (fun m r => omEnsure m (substr src r)) m2

/-- The universe of suggestion strings reachable while matching `tree`
with the given shortcut options; only used as the ellipsis-loop fuel bound
(via `mctx.pool`). -/
def treePool (src : Str) (tree : node) (shortcuts : List option_t) :
    Finset Str :=
  (nodeSuggList src tree).toFinset ∪
    (shortcuts.map (option_t.name_as_string src)).toFinset

/-- Result of `match_argv`: the finalized option map and the unused argv
indexes written through `out_unused_arguments`. -/
structure MatchResult where
  option_map : omap
  unused : List Nat
deriving DecidableEq, Inhabited

/-- `match_argv(argv, flags, positionals, resolved_options, all_options,
all_variables, out_unused_arguments)`. -/
def match_argv (src : Str) (tree : node) (flags : pflags)
    (positionals : List Nat) (resolved : List resolved_option_t)
    (argv : List Str) (all_options : List option_t)
    (all_variables all_static_arguments : List range_t)
    (shortcuts : List option_t) : MatchResult :=
  let ctx : mctx :=
    ⟨flags, positionals, resolved, argv, shortcuts, src,
     treePool src tree shortcuts⟩
  let init : match_state_t :=
    { consumed_options := List.replicate resolved.length false }
  let states := matchNode ctx (ndepth tree + 1) false tree init
  if states.isEmpty then
    { option_map := finalize_option_map src [] all_options all_variables
        all_static_arguments flags
      unused := List.range argv.length }
  else
    let sel := selectLoop ctx states 0 0 []
    { option_map := finalize_option_map src
        ((states.getD sel.1 default).option_map) all_options all_variables
        all_static_arguments flags
      unused := sel.2 }

/-! ## Section finding and doc parsing -/

/-- `str.find('\n', line_start)` (absolute index). -/
def find_newline (s : Str) (pos : Nat) : Option Nat :=
  ((s.drop pos).findIdx? (· = '\n')).map (pos + ·)

/-- `get_next_line(str, inout_range, end)`: the line starting at `pos`,
ending just past the next newline (or at the effective end). -/
def get_next_line (s : Str) (pos : Nat) (endPos : Nat) : Option range_t :=
  let effEnd := min s.length endPos
  if pos < effEnd then
    let line_end := match find_newline s pos with
      | none => effEnd
      | some nl => if nl > effEnd then effEnd else nl + 1
    some ⟨pos, line_end - pos⟩
  else none

/-- Iterating `get_next_line`: each returned line is non-empty, so the
position strictly increases and fuel `|s| + 1` reaches the end. -/
def lines_loop (s : Str) (endPos : Nat) : Nat → Nat → List range_t
  | 0, _ => []
  | fuel + 1, pos =>
    match get_next_line s pos endPos with
    | none => []
    | some r => r :: lines_loop s endPos fuel r.end_

/-- All logical lines of `s` from `pos` up to `endPos`. -/
def lines_from (s : Str) (pos endPos : Nat) : List range_t :=
  lines_loop s endPos (s.length + 1) pos

/-- `compute_indent(src, start, len)`: tabs round up to the next multiple
of 4. -/
def compute_indent (src : Str) (start len : Nat) : Nat :=
  ((src.drop start).take len).foldl
    (fun r c => if c ≠ '\t' then r + 1 else (r + 4) / 4 * 4) 0

/-- `find_colon(r, src)` (absolute index of the first `:` in `r`). -/
def find_colon (r : range_t) (src : Str) : Option Nat :=
  ((substr src r).findIdx? (· = ':')).map (r.start + ·)

/-- `find_case_insensitive(haystack, needle, start)`: first occurrence of
`needle` at or after `start`, ASCII case-folded. -/
def find_case_insensitive (src needle : Str) (start : Nat) : Option Nat :=
  (List.range (src.length + 1)).find? (fun i =>
    start ≤ i ∧ i + needle.length ≤ src.length ∧
    ((src.drop i).take needle.length).map cToLower = needle.map cToLower)

/-- First occurrence of two consecutive spaces at or after `start`
(`source.find(two_spaces, pos)`). -/
def find_two_spaces (src : Str) (start : Nat) : Option Nat :=
  (List.range (src.length + 1)).find? (fun i =>
    start ≤ i ∧ (src.drop i).take 2 = [' ', ' '])

/-- First `]` at or after `start` (`source.find(']', pos)`). -/
def find_close_bracket (src : Str) (start : Nat) : Option Nat :=
  (List.range (src.length + 1)).find? (fun i =>
    start ≤ i ∧ (src.drop i).take 1 = [']'])

/-- State of the `source_ranges_for_section` scan: whether we are inside a
matching section, the indent of the current header (`none` models the
initial `(size_t)-1`, i.e. +infinity), and the collected ranges. -/
structure SectionScan where
  in_desired_section : Bool := false
  current_header_indent : Option Nat := none
  result : List range_t := []

/-- One line of the `source_ranges_for_section` loop. -/
def section_step (src : Str) (name : Str) (include_other_top_level : Bool)
    (st : SectionScan) (line_range : range_t) : SectionScan :=
  let trimmed := trim_whitespace line_range src
  let trimmed_start := trimmed.start
  let line_indent :=
    compute_indent src line_range.start (trimmed_start - line_range.start)
  let hOk : Bool := match st.current_header_indent with
    | none => true
    | some h => decide (line_indent ≤ h)
  let at_top : Bool := (¬ trimmed.isEmpty) && hOk
  let colon_pos := if at_top then find_colon trimmed src else none
  let is_header : Bool := at_top && colon_pos.isSome
  let is_other_top_level : Bool := at_top && colon_pos.isNone
  if is_other_top_level && ¬ include_other_top_level then
    { st with in_desired_section := false }
  else if is_header then
    let name_pos := find_case_insensitive src name trimmed_start
    let in_sec : Bool :=
      match name_pos, colon_pos with
      | some np, some cp => decide (np < trimmed.end_ ∧ np < cp)
      | _, _ => false
    if in_sec then
      let new_start := (name_pos.getD 0) + name.length
      let adjusted : range_t := ⟨new_start, line_range.end_ - new_start⟩
      { in_desired_section := true
        current_header_indent := some line_indent
        result := (st.result ++ [(⟨0, 0⟩ : range_t)]).modifyLast
          (fun r => r.merge adjusted) }
    else
      { st with in_desired_section := false
                current_header_indent := some line_indent }
  else if st.in_desired_section then
    { st with result := st.result.modifyLast (fun r => r.merge line_range) }
  else st

/-- `source_ranges_for_section(name, include_other_top_level)`. -/
def source_ranges_for_section (src : Str) (name : Str)
    (include_other_top_level : Bool := false) : List range_t :=
  ((lines_from src 0 src.length).foldl
    (section_step src name include_other_top_level) {}).result

/-- `line_contains_option_spec`: leading whitespace then a dash. -/
def line_contains_option_spec (src : Str) (r : range_t) : Bool :=
  let sp := scan_while src r cIsSpace
  let da := scan_while src sp.2 (· = '-')
  sp.1.length > 0 ∧ da.1.length > 0

/-- `line_contains_condition_spec`: leading whitespace then `<`. -/
def line_contains_condition_spec (src : Str) (r : range_t) : Bool :=
  let sp := scan_while src r cIsSpace
  let ob := scan_while src sp.2 (· = '<')
  sp.1.length > 0 ∧ ob.1.length > 0

/-- The option-parsing loop of `parse_one_option_spec` (each iteration
consumes at least the leading dash, so fuel `|remaining| + 1` suffices). -/
def one_spec_loop (src : Str) (description_range default_value_range : range_t) :
    Nat → range_t → List option_t × List err
  | 0, _ => ([], [])
  | fuel + 1, remaining =>
    if remaining.isEmpty then ([], [])
    else if src.getD remaining.start ' ' ≠ '-' then
      ([], [mkErr remaining.start ecode.error_invalid_option_name])
    else
      let pr := parse_from_string src remaining
      let opt := pr.1
      let rem' := pr.2.1
      let errs := pr.2.2
      if opt.name.isEmpty then ([], errs)
      else
        let opt := { opt with
          description_range := description_range,
          default_value_range := default_value_range }
        let rem2 := (scan_while src
          ((scan_while src ((scan_while src rem' cIsSpace).2) (· = ',')).2)
          cIsSpace).2
        let rec_ := one_spec_loop src description_range default_value_range fuel rem2
        (opt :: rec_.1, errs ++ rec_.2)

/-- `parse_one_option_spec(range, errors)`. -/
def parse_one_option_spec (src : Str) (range : range_t) :
    List option_t × List err :=
  let end_ := range.end_
  let options_end := match find_two_spaces src range.start with
    | none => end_
    | some t => if t > end_ then end_ else t
  let description_range :=
    trim_whitespace ⟨options_end, end_ - options_end⟩ src
  let dflt : range_t × List err :=
    if ¬ description_range.isEmpty then
      match find_case_insensitive src "[default:".toList
          description_range.start with
      | some dp =>
        if dp < description_range.end_ then
          let dvs0 := dp + ("[default:".toList).length
          let skip := (((src.drop dvs0).take
            (description_range.end_ - dvs0)).takeWhile cIsSpace).length
          let dvs := dvs0 + skip
          match find_close_bracket src dvs with
          | none =>
            (⟨0, 0⟩, [mkErr dp ecode.error_missing_close_bracket_in_default])
          | some ce =>
            if ce ≥ description_range.end_ then
              (⟨0, 0⟩, [mkErr dp ecode.error_missing_close_bracket_in_default])
            else (⟨dvs, ce - dvs⟩, [])
        else (⟨0, 0⟩, [])
      | none => (⟨0, 0⟩, [])
    else (⟨0, 0⟩, [])
  let default_value_range := dflt.1
  let remaining0 : range_t := ⟨range.start, options_end - range.start⟩
  let remaining1 := (scan_while src remaining0 cIsSpace).2
  let lp : List option_t × List err := one_spec_loop src description_range
    default_value_range (remaining1.length + 1) remaining1
  let result : List option_t := lp.1
  -- Post-processing: the last long option's name becomes everyone's
  -- corresponding long name; the last seen value range fills empty ones.
  let lastLong := (result.filter (fun o => o.type = otype.double_long)).getLast?
  let result : List option_t := match lastLong with
    | some lo => result.map (fun o => { o with corresponding_long_name := lo.name })
    | none => result
  let lastVal : Option range_t :=
    ((result.filter (fun o => ¬ o.value.isEmpty)).getLast?).map (fun o => o.value)
  let result : List option_t := match lastVal with
    | some v => result.map (fun o => if o.value.isEmpty then { o with value := v } else o)
    | none => result
  (result, dflt.2 ++ lp.2)

/-- The per-line grouping loop of `parse_options_spec`: skip blank lines,
report non-spec lines, merge continuation lines into the current spec.
Each iteration consumes at least one line, so fuel `|lines| + 1` covers
the loop. -/
def options_lines_loop (src : Str) :
    Nat → List range_t → List option_t × List err
  | 0, _ => ([], [])
  | _, [] => ([], [])
  | fuel + 1, line :: rest =>
    let trimmed := trim_whitespace line src
    if trimmed.isEmpty then options_lines_loop src fuel rest
    else if ¬ line_contains_option_spec src line then
      let r := options_lines_loop src fuel rest
      (r.1, mkErr line.start ecode.error_invalid_option_name :: r.2)
    else
      let cont := rest.takeWhile (fun l => ¬ line_contains_option_spec src l)
      let spec_range := cont.foldl (fun r l => r.merge l) line
      let rest' := rest.drop cont.length
      let spec_range := (scan_while src spec_range cIsSpace).2
      let pr := parse_one_option_spec src spec_range
      let r := options_lines_loop src fuel rest'
      (pr.1 ++ r.1, pr.2 ++ r.2)

/-- `parse_options_spec(errors)`. -/
def parse_options_spec (src : Str) : List option_t × List err :=
  (source_ranges_for_section src "Options:".toList).foldl
    (fun acc sec =>
      let lns := lines_from src sec.start sec.end_
      let r := options_lines_loop src (lns.length + 1) lns
      (acc.1 ++ r.1, acc.2 ++ r.2))
    ([], [])

/-- The per-line grouping loop of `parse_conditions_spec` (fueled like
`options_lines_loop`). -/
def conditions_lines_loop (src : Str) :
    Nat → List range_t → List (Str × range_t) →
    List (Str × range_t) × List err
  | 0, _, acc => (acc, [])
  | _, [], acc => (acc, [])
  | fuel + 1, line :: rest, acc =>
    let trimmed := trim_whitespace line src
    if trimmed.isEmpty then conditions_lines_loop src fuel rest acc
    else if ¬ line_contains_condition_spec src line then
      let r := conditions_lines_loop src fuel rest acc
      (r.1, mkErr line.start ecode.error_invalid_variable_name :: r.2)
    else
      let cont := rest.takeWhile (fun l => ¬ line_contains_condition_spec src l)
      let spec_range := cont.foldl (fun r l => r.merge l) line
      let rest' := rest.drop cont.length
      let spec_range := trim_whitespace spec_range src
      match find_two_spaces src spec_range.start with
      | some sep =>
        if sep < spec_range.end_ then
          let key := trim_whitespace ⟨spec_range.start, sep - spec_range.start⟩ src
          let value := trim_whitespace ⟨sep, spec_range.end_ - sep⟩ src
          let key_str := substr src key
          if (acc.find? (fun p => p.1 = key_str)).isSome then
            let r := conditions_lines_loop src fuel rest' acc
            (r.1,
             mkErr key.start ecode.error_one_variable_multiple_conditions :: r.2)
          else conditions_lines_loop src fuel rest' (acc ++ [(key_str, value)])
        else conditions_lines_loop src fuel rest' acc
      | none => conditions_lines_loop src fuel rest' acc

/-- `parse_conditions_spec(errors)` (includes other top-level lines). -/
def parse_conditions_spec (src : Str) : List (Str × range_t) × List err :=
  (source_ranges_for_section src "Conditions:".toList true).foldl
    (fun acc sec =>
      let lns := lines_from src sec.start sec.end_
      let r := conditions_lines_loop src (lns.length + 1) lns acc.1
      (r.1, acc.2 ++ r.2))
    ([], [])

/-! ## `uniqueize_options`, clause collection, shortcut excision,
`preflight` -/

/-- Indices `j` of `l` naming the same option as index `i`
(`options_have_same_name`); name equality by shared-source text is an
equivalence, so the class does not depend on the member chosen. -/
def uniq_class (src : Str) (l : List option_t) (i : Nat) : List Nat :=
  (List.range l.length).filter (fun j =>
    option_t.has_same_name src (l.getD i default) (l.getD j default))

/-- The member of `i`'s class that `uniqueize_options` keeps: scanning the
class in ascending order, a later member replaces the best only with a
strictly longer description. -/
def uniq_best (src : Str) (l : List option_t) (i : Nat) : Nat :=
  match uniq_class src l i with
  | [] => i
  | c :: cs =>
    cs.foldl (fun best j =>
      if (l.getD j default).description_range.length >
          (l.getD best default).description_range.length then j else best) c

/-- `uniqueize_options(options, error_on_duplicates, errors)`: keep, from
each same-name class, the first member with the longest description, in
place; with `error_on_duplicates`, report every non-first member of a
class (classes in order of first occurrence). -/
def uniqueize_options (src : Str) (error_on_duplicates : Bool)
    (l : List option_t) : List option_t × List err :=
  let n := l.length
  let keep := (List.range n).filter (fun i => uniq_best src l i = i)
  let firsts := (List.range n).filter (fun i =>
    (List.range i).all (fun j =>
      ¬ option_t.has_same_name src (l.getD i default) (l.getD j default)))
  let errs := if error_on_duplicates then
      firsts.flatMap (fun f =>
        ((List.range n).filter (fun j => f < j ∧
            option_t.has_same_name src (l.getD f default) (l.getD j default))).map
          (fun j => mkErr (l.getD j default).name.start
            ecode.error_option_duplicated_in_options_section))
    else []
  (keep.map (fun i => l.getD i default), errs)

mutual

/-- `clause_collector_t`: the options of all `option_clause`s, in
traversal order. -/
def collectOptions : node → List option_t
  | node.usage _ al nu => collectOptionsO al ++ collectOptionsO nu
  | node.expression_list e oel => collectOptionsO e ++ collectOptionsO oel
  | node.opt_expression_list el => collectOptionsO el
  | node.alternation_list el oc => collectOptionsO el ++ collectOptionsO oc
  | node.or_continuation al => collectOptionsO al
  | node.expression _ _ sc al => collectOptionsO sc ++ collectOptionsO al
  | node.simple_clause oc fc vc =>
      collectOptionsO oc ++ collectOptionsO fc ++ collectOptionsO vc
  | node.option_clause o => [o]
  | node.fixed_clause _ => []
  | node.variable_clause _ => []

/-- `collectOptions` through an optional child. -/
def collectOptionsO : Option node → List option_t
  | none => []
  | some n => collectOptions n

end

mutual

/-- `clause_collector_t`: the words of all `variable_clause`s. -/
def collectVariables : node → List range_t
  | node.usage _ al nu => collectVariablesO al ++ collectVariablesO nu
  | node.expression_list e oel => collectVariablesO e ++ collectVariablesO oel
  | node.opt_expression_list el => collectVariablesO el
  | node.alternation_list el oc => collectVariablesO el ++ collectVariablesO oc
  | node.or_continuation al => collectVariablesO al
  | node.expression _ _ sc al => collectVariablesO sc ++ collectVariablesO al
  | node.simple_clause oc fc vc =>
      collectVariablesO oc ++ collectVariablesO fc ++ collectVariablesO vc
  | node.option_clause _ => []
  | node.fixed_clause _ => []
  | node.variable_clause w => [w]

/-- `collectVariables` through an optional child. -/
def collectVariablesO : Option node → List range_t
  | none => []
  | some n => collectVariables n

end

mutual

/-- `clause_collector_t`: the words of all `fixed_clause`s. -/
def collectFixeds : node → List range_t
  | node.usage _ al nu => collectFixedsO al ++ collectFixedsO nu
  | node.expression_list e oel => collectFixedsO e ++ collectFixedsO oel
  | node.opt_expression_list el => collectFixedsO el
  | node.alternation_list el oc => collectFixedsO el ++ collectFixedsO oc
  | node.or_continuation al => collectFixedsO al
  | node.expression _ _ sc al => collectFixedsO sc ++ collectFixedsO al
  | node.simple_clause oc fc vc =>
      collectFixedsO oc ++ collectFixedsO fc ++ collectFixedsO vc
  | node.option_clause _ => []
  | node.fixed_clause w => [w]
  | node.variable_clause _ => []

/-- `collectFixeds` through an optional child. -/
def collectFixedsO : Option node → List range_t
  | none => []
  | some n => collectFixeds n

end

/-- The shortcut-excision loop of `preflight` (lines 1893–1904): drop
every shortcut option that shares its name with some usage option. -/
def excise_shortcuts (src : Str) :
    List option_t → List option_t → List option_t
  | [], _ => []
  | s :: rest, usage =>
    if usage.any (fun u => option_t.has_same_name src s u) then
      excise_shortcuts src rest usage
    else s :: excise_shortcuts src rest usage

/-- The state `preflight` leaves in `docopt_impl` (plus `usage_options`,
local in the C++, exposed here to express the excision property). -/
structure PreflightResult where
  success : Bool
  shortcut_options : List option_t := []
  all_options : List option_t := []
  all_variables : List range_t := []
  all_static_arguments : List range_t := []
  usage_options : List option_t := []
  conditions : List (Str × range_t) := []
  parse_tree : Option node := none
  errors : List err := []

/-- `preflight()`.  The grammar parser `parse_usage` lives outside this
repository snapshot (`docopt_fish_grammar.h`) — modelled from the spec as
an opaque function returning the tree (or `none` on failure) together with
the errors it appends. -/
def preflight (src : Str)
    (parse_usage : Str → range_t → List option_t → Option node × List err) :
    PreflightResult :=
  let usage_ranges := source_ranges_for_section src "Usage:".toList
  if usage_ranges.isEmpty then
    { success := false,
      errors := [⟨none, ecode.error_missing_usage_section, none⟩] }
  else if usage_ranges.length > 1 then
    { success := false,
      errors := [⟨none, ecode.error_excessive_usage_sections, none⟩] }
  else
    let po := parse_options_spec src
    let uq := uniqueize_options src true po.1
    let so := uq.1
    let pu := parse_usage src (usage_ranges.getD 0 ⟨0, 0⟩) so
    match pu.1 with
    | none =>
      { success := false, errors := po.2 ++ uq.2 ++ pu.2 }
    | some tree =>
      let usage_options := collectOptions tree
      let uqa := uniqueize_options src false (usage_options ++ so)
      let so' := excise_shortcuts src so usage_options
      let pc := parse_conditions_spec src
      { success := true
        shortcut_options := so'
        all_options := uqa.1
        all_variables := collectVariables tree
        all_static_arguments := collectFixeds tree
        usage_options := usage_options
        conditions := pc.1
        parse_tree := some tree
        errors := po.2 ++ uq.2 ++ pu.2 ++ uqa.2 ++ pc.2 }

/-! ## `description_for_option` -/

/-- The name comparison of `description_for_option`: a short or
single-long option is compared against the query past one dash, a
double-long option against the query past two dashes (and only when the
query started with `--`). -/
def dfo_match (src : Str) (q : Str) (has_double_dash : Bool)
    (opt : option_t) : Bool :=
  if opt.type = otype.single_short ∨ opt.type = otype.single_long then
    range_equals_string src opt.name q 1
  else if opt.type = otype.double_long ∧ has_double_dash then
    range_equals_string src opt.name q 2
  else false

/-- The scan of `description_for_option`: skip options with empty
descriptions; return the first matching option's description. -/
def dfo_loop (src : Str) (q : Str) (has_double_dash : Bool) :
    List option_t → Str
  | [] => []
  | opt :: rest =>
    if opt.description_range.isEmpty then dfo_loop src q has_double_dash rest
    else if dfo_match src q has_double_dash opt then
      substr src opt.description_range
    else dfo_loop src q has_double_dash rest

/-- `description_for_option(given_option_name)`. -/
def description_for_option (src : Str) (all_options : List option_t)
    (q : Str) : Str :=
  if q.length < 2 ∨ q.getD 0 ' ' ≠ '-' then []
  else dfo_loop src q (q.getD 1 ' ' = '-') all_options

/-! ## Invariants used by the ellipsis-termination development (C3) -/

/-- The state invariant maintained by the matcher: the consumed-options
bitset tracks the resolved options one-to-one, the positional cursor stays
within bounds, and every suggestion string belongs to the context's
suggestion pool. -/
def stateInv (ctx : mctx) (s : match_state_t) : Prop :=
  s.consumed_options.length = ctx.resolved_options.length ∧
  s.next_positional_index ≤ ctx.positionals.length ∧
  s.suggested_next_arguments ⊆ ctx.pool

instance (ctx : mctx) (s : match_state_t) : Decidable (stateInv ctx s) := by
  unfold stateInv
  infer_instance

/-- Every string the matcher could suggest while walking `n` is in the
pool. -/
def nodeOk (src : Str) (n : node) (pool : Finset Str) : Prop :=
  ∀ x ∈ nodeSuggList src n, x ∈ pool

instance (src : Str) (n : node) (pool : Finset Str) :
    Decidable (nodeOk src n pool) := by
  unfold nodeOk
  infer_instance

/-- Every shortcut option's display name is in the pool. -/
def shortcutsOk (ctx : mctx) : Prop :=
  ∀ o ∈ ctx.shortcut_options, o.name_as_string ctx.src ∈ ctx.pool

instance (ctx : mctx) : Decidable (shortcutsOk ctx) := by
  unfold shortcutsOk
  infer_instance

/-- The progress bound: no invariant-satisfying state can progress past
`|positionals| + |resolved| + |pool|`. -/
def progressBound (ctx : mctx) : Nat :=
  ctx.positionals.length + ctx.resolved_options.length + ctx.pool.card

/-! ## Concrete instances used by witnesses and counterexamples -/

/-- Doc source `Usage: prog [-v]` (shared by several witnesses). -/
def exSrc : Str := "Usage: prog [-v]".toList

/-- The `-v` option of `exSrc` (name range at the `v`). -/
def exOptV : option_t :=
  { name := ⟨14, 1⟩, value := ⟨0, 0⟩, type := otype.single_short,
    separator := osep.sep_space }

/-- The usage tree of `Usage: prog [-v]`: `usage` → `alternation_list` →
`expression_list` → bracket `expression` → `alternation_list` →
`expression_list` → simple `expression` → `simple_clause` →
`option_clause -v`. -/
def exTree : node :=
  node.usage ⟨7, 4⟩ (some (node.alternation_list (some (node.expression_list
    (some (node.expression 2 false none (some (node.alternation_list
      (some (node.expression_list (some (node.expression 0 false
        (some (node.simple_clause (some (node.option_clause exOptV)) none none))
        none))
        (some (node.opt_expression_list none)))) none))))
    (some (node.opt_expression_list none)))) none)) none

/-- argv `prog -vv`. -/
def exArgv : List Str := ["prog".toList, "-vv".toList]

/-- Tokenization of `prog -vv` against the `-v` catalog. -/
def exSep : SepResult := separate_argv exSrc exArgv [exOptV] {} false

/-- The match context arising in `match_argv` for the example. -/
def exCtx : mctx :=
  ⟨{}, exSep.positionals, exSep.resolved, exArgv, [exOptV], exSrc,
   treePool exSrc exTree [exOptV]⟩

/-- The candidate states of the example match. -/
def exStates : List match_state_t :=
  matchNode exCtx (ndepth exTree + 1) false exTree
    { consumed_options := List.replicate exSep.resolved.length false }

/-- A context for the fixed-clause counterexample: one positional `bar`
where the usage wants the literal `foo`, with suggestions and incomplete
matching enabled. -/
def cfixCtx : mctx :=
  ⟨{ generate_suggestions := true, match_allow_incomplete := true },
   [0], [], ["bar".toList], [], "foo".toList, ∅⟩

/-- Source for the `description_for_option` witness: `-x  Ex`. -/
def dSrc : Str := "-x  Ex".toList

/-- The `-x` option of `dSrc`, with description `Ex`. -/
def dOptX : option_t :=
  { name := ⟨1, 1⟩, value := ⟨0, 0⟩, type := otype.single_short,
    separator := osep.sep_space, description_range := ⟨4, 2⟩ }

/-- Doc for the preflight witnesses: `Usage: prog [-v]` with an `Options:`
section declaring `-v` and `-q`. -/
def pfSrc : Str :=
  "Usage: prog [-v]\nOptions:\n  -v  vv\n  -q  qq\n".toList

/-- A stub external grammar parser returning the `Usage: prog [-v]` tree
(whose ranges are valid for `pfSrc` as well). -/
def pfPu : Str → range_t → List option_t → Option node × List err :=
  fun _ _ _ => (some exTree, [])

/-- Source for the C5 witness: two double-long options `--foam`,
`--fond`. -/
def ambSrc : Str := "--foam --fond".toList

/-- `--foam` of `ambSrc`. -/
def ambOptA : option_t :=
  { name := ⟨2, 4⟩, value := ⟨0, 0⟩, type := otype.double_long,
    separator := osep.sep_space }

/-- `--fond` of `ambSrc`. -/
def ambOptB : option_t :=
  { name := ⟨9, 4⟩, value := ⟨0, 0⟩, type := otype.double_long,
    separator := osep.sep_space }

/-- argv `--fo` (a strict prefix of both catalog names). -/
def ambArgv : List Str := ["--fo".toList]

/-- Flags with `resolve_unambiguous_prefixes`. -/
def ambFlags : pflags := { resolve_unambiguous_prefixes := true }

/-- Source for the C2 witness: `-m  [default: hi]`. -/
def fSrc : Str := "-m  [default: hi]".toList

/-- The `-m` option of `fSrc`, carrying the default value `hi`. -/
def fOptM : option_t :=
  { name := ⟨1, 1⟩, value := ⟨0, 0⟩, type := otype.single_short,
    separator := osep.sep_space, default_value_range := ⟨14, 2⟩ }

/-- The result of the full example parse (`prog -vv` against
`Usage: prog [-v]`). -/
def exResult : MatchResult :=
  match_argv exSrc exTree {} exSep.positionals exSep.resolved exArgv
    [exOptV] [] [] [exOptV]

/-- The index of the state the selection loop picks in the example. -/
def exBestIdx : Nat := (selectLoop exCtx exStates 0 0 []).1

/-- The match state the example parse selects as best. -/
def exBest : match_state_t := exStates.getD exBestIdx default

/-! # Theorems -/

/-- Helper for C10: the scan of `description_for_option` returns the
description of the first option with a non-empty description whose name
matches the query. -/
theorem dfo_loop_eq_find (src : Str) (q : Str) (hdd : Bool)
    (l : List option_t) :
    dfo_loop src q hdd l =
      ((l.find? (fun opt =>
          ¬ opt.description_range.isEmpty ∧ dfo_match src q hdd opt)).map
        (fun opt => substr src opt.description_range)).getD [] := by
  induction l with
  | nil => rfl
  | cons opt rest ih =>
    by_cases hd : opt.description_range.isEmpty
    · simpa [dfo_loop, List.find?, hd] using ih
    · by_cases hm : dfo_match src q hdd opt = true
      · simp [dfo_loop, List.find?, hd, hm]
      · have hm' : dfo_match src q hdd opt = false := by
          simpa using hm
        simpa [dfo_loop, List.find?, hd, hm'] using ih

/-- C10: `description_for_option` returns the empty string for every query
with fewer than 2 characters or not beginning with `-`; it never returns
the description of an option through a match on one with an empty
description range (those are skipped); and when it matches, it returns the
description text of the first matching option in `all_options`. -/
theorem description_for_option_spec (src : Str) (opts : List option_t)
    (q : Str) :
    (q.length < 2 ∨ q.getD 0 ' ' ≠ '-' →
      description_for_option src opts q = []) ∧
    (2 ≤ q.length → q.getD 0 ' ' = '-' →
      description_for_option src opts q =
        ((opts.find? (fun opt =>
            ¬ opt.description_range.isEmpty ∧
            dfo_match src q (q.getD 1 ' ' = '-') opt)).map
          (fun opt => substr src opt.description_range)).getD []) := by
  constructor
  · intro h
    unfold description_for_option
    rw [if_pos h]
  · intro h1 h2
    unfold description_for_option
    rw [if_neg (by push_neg; exact ⟨by omega, h2⟩)]
    exact dfo_loop_eq_find src q _ opts

/-- Witness for C10 at the `-x  Ex` doc: querying `-x` returns `Ex`. -/
theorem description_for_option_spec_witness :
    description_for_option dSrc [dOptX] "-x".toList = "Ex".toList :=
  ((description_for_option_spec dSrc [dOptX] "-x".toList).2 (by decide)
    (by decide)).trans (by decide)

/-- C9 (counterexample): matching a `fixed_clause` for the literal `foo`
against a state whose next positional is `bar`, with both
`flag_generate_suggestions` and `flag_match_allow_incomplete` set,
produces *no* successor state at all — contradicting the claim that in
this situation the literal is added to the suggestions and the state
passes through because `flag_match_allow_incomplete` is set. -/
theorem fixed_clause_mismatch_counterexample :
    cfixCtx.has_more_positionals {} = true ∧
    cfixCtx.argv.getD (cfixCtx.next_positional {}) [] ≠
      substr cfixCtx.src ⟨0, 3⟩ ∧
    cfixCtx.flags.generate_suggestions = true ∧
    cfixCtx.flags.match_allow_incomplete = true ∧
    matchNode cfixCtx 1 false (node.fixed_clause ⟨0, 3⟩) {} = [] := by
  decide

/-- C9 (amended): matching a `fixed_clause`: if the next positional exists
and its argv text equals the literal, that positional is consumed, the
literal's count is incremented in the option map, and the state is the
single successor.  If the next positional exists but differs from the
literal, there are no successors and no suggestion is recorded.  Only when
no positional remains is the literal added to the suggestions (when
`flag_generate_suggestions` is set) and the state passed through exactly
when `flag_match_allow_incomplete` is set. -/
theorem fixed_clause_match (ctx : mctx) (w : range_t) (isb : Bool)
    (fuel : Nat) (s : match_state_t) :
    (ctx.has_more_positionals s = true →
      (let name := ctx.argv.getD (ctx.next_positional s) []
       (name.length = w.length ∧ range_equals_string ctx.src w name →
          matchNode ctx (fuel + 1) isb (node.fixed_clause w) s =
            [{ s with
                option_map := omSet s.option_map name
                  { omGetD s.option_map name with
                      count := (omGetD s.option_map name).count + 1 }
                next_positional_index := s.next_positional_index + 1 }]) ∧
       (¬ (name.length = w.length ∧ range_equals_string ctx.src w name) →
          matchNode ctx (fuel + 1) isb (node.fixed_clause w) s = []))) ∧
    (ctx.has_more_positionals s = false →
      matchNode ctx (fuel + 1) isb (node.fixed_clause w) s =
        (if ctx.flags.match_allow_incomplete then
          [if ctx.flags.generate_suggestions then
            { s with suggested_next_arguments :=
                insert (substr ctx.src w) s.suggested_next_arguments }
          else s]
        else [])) := by
  refine ⟨fun hmore => ⟨fun hname => ?_, fun hname => ?_⟩, fun hno => ?_⟩
  · simp only [matchNode, hmore, if_true]
    try rw [if_pos hname]
  · simp only [matchNode, hmore, if_true]
    try rw [if_neg hname]
  · simp only [matchNode, hno]
    simp

/-- Witness for C9: the three branches at concrete inputs — a matching
positional (`exCtx` matching `prog`), and the mismatch branch of the
amended claim. -/
theorem fixed_clause_match_witness :
    matchNode cfixCtx 1 false (node.fixed_clause ⟨0, 3⟩) {} = [] :=
  ((fixed_clause_match cfixCtx ⟨0, 3⟩ false 0 {}).1 (by decide)).2 (by decide)

/-- C5: in `parse_long`, when no catalog option of the requested type
exactly matches the arg's name and `flag_resolve_unambiguous_prefixes` is
set: a unique strict-prefix extension is used as the match; two or more
extensions report `error_ambiguous_prefix_match` (followed by the
`unknown_option` error) and fail, and at the tokenizer the `--` argument
is consumed (index advanced past it) without yielding a resolved option;
no extension at all fails with only the `unknown_option` error. -/
theorem parse_long_prefix_resolution
    (src : Str) (argv : List Str) (type : otype) (flags : pflags) (idx : Nat)
    (options : List option_t) (ws : Bool)
    (hflag : flags.resolve_unambiguous_prefixes = true)
    (hexact : exact_matches src (argv.getD idx []) type options = []) :
    (∀ p, prefix_match_list src (argv.getD idx []) type options = [p] →
      parse_long src argv type flags idx options ws =
        parse_long_process src argv flags idx ws p
          (arg_as_option (argv.getD idx []) type)) ∧
    (1 < (prefix_match_list src (argv.getD idx []) type options).length →
      (parse_long src argv type flags idx options ws =
        { success := false, resolved := [], next_idx := idx,
          errors := [mkArgvErr idx ecode.error_ambiguous_prefix_match,
                     mkArgvErr idx ecode.error_unknown_option],
          suggestion := none }) ∧
      ((argv.getD idx []).take 2 = ['-', '-'] → argv.getD idx [] ≠ ['-', '-'] →
        type = otype.double_long →
        (sep_step src argv options flags ws idx).next_idx = idx + 1 ∧
        (sep_step src argv options flags ws idx).resolved = [] ∧
        mkArgvErr idx ecode.error_ambiguous_prefix_match ∈
          (sep_step src argv options flags ws idx).errs_appended)) ∧
    (prefix_match_list src (argv.getD idx []) type options = [] →
      parse_long src argv type flags idx options ws =
        { success := false, resolved := [], next_idx := idx,
          errors := [mkArgvErr idx ecode.error_unknown_option],
          suggestion := none }) := by
  have hcond : (exact_matches src (argv.getD idx []) type options).isEmpty
      = true := by rw [hexact]; rfl
  refine ⟨fun p hpm => ?_, fun hpm => ⟨?_, ?_⟩, fun hpm => ?_⟩
  · simp only [parse_long, hcond, hflag, hexact, hpm, and_self, if_true]
    norm_num
  · simp only [parse_long, hcond, hflag, hexact, and_self, if_true,
      if_pos hpm]
    simp
  · intro h2 hne htype
    subst htype
    have hpl : parse_long src argv otype.double_long flags idx options ws =
        { success := false, resolved := [], next_idx := idx,
          errors := [mkArgvErr idx ecode.error_ambiguous_prefix_match,
                     mkArgvErr idx ecode.error_unknown_option],
          suggestion := none } := by
      simp only [parse_long, hcond, hflag, hexact, and_self, if_true,
        if_pos hpm]
      simp
    simp only [sep_step, if_neg hne, h2, if_pos rfl, hpl]
    simp
  · simp only [parse_long, hcond, hflag, hexact, hpm, and_self, if_true]
    norm_num

/-- Witness for C5: `--fo` against the catalog `--foam`, `--fond` (both
double-long): ambiguous prefix; the tokenizer consumes the argument and
reports `error_ambiguous_prefix_match`. -/
theorem parse_long_prefix_resolution_witness :
    parse_long ambSrc ambArgv otype.double_long ambFlags 0
        [ambOptA, ambOptB] false =
      { success := false, resolved := [], next_idx := 0,
        errors := [mkArgvErr 0 ecode.error_ambiguous_prefix_match,
                   mkArgvErr 0 ecode.error_unknown_option],
        suggestion := none } :=
  (((parse_long_prefix_resolution ambSrc ambArgv otype.double_long ambFlags 0
      [ambOptA, ambOptB] false (by decide) (by decide)).2.1 (by decide)).1)

/-- C7: for a single-dash argv token, the tokenizer step tries long
parsing, then unseparated-short and combined-short parsing at the cursor
the long parse left behind (a failing `parse_long` may have consumed the
next argv slot as a value before failing the separator check); when all
three fail the cached errors are reported with the short-path errors
(unseparated then combined) placed before the long-path errors, inserted
at the front of the output error list, and the tokenizer skips one token
past the failed parse's cursor; when any branch succeeds no cached error
of a failing branch is reported, and a suggestion the failing long parse
wrote survives unless the combined-short parse overwrites it. -/
theorem sep_single_dash_errors (src : Str) (argv : List Str)
    (options : List option_t) (flags : pflags) (ws : Bool) (idx : Nat)
    (h1 : (argv.getD idx []).take 1 = ['-'])
    (h2 : 1 < (argv.getD idx []).length)
    (h3 : (argv.getD idx []).take 2 ≠ ['-', '-']) :
    (let L := parse_long src argv otype.single_long flags idx options ws
     let U := parse_unseparated_short src argv flags L.next_idx options
     let S := parse_short src argv flags L.next_idx options ws
     (L.success = false → U.success = false → S.success = false →
       sep_step src argv options flags ws idx =
         { positionals := [], resolved := [], errs_appended := [],
           errs_prepended := (U.errors ++ S.errors) ++ L.errors,
           next_idx := S.next_idx + 1,
           suggestion := (match S.suggestion with
             | some sg => some sg
             | none => L.suggestion)
           stop := false }) ∧
     (L.success = true →
       sep_step src argv options flags ws idx =
         { positionals := [], resolved := L.resolved, errs_appended := [],
           errs_prepended := [], next_idx := L.next_idx,
           suggestion := L.suggestion, stop := false }) ∧
     (L.success = false → U.success = true →
       sep_step src argv options flags ws idx =
         { positionals := [], resolved := U.resolved, errs_appended := [],
           errs_prepended := [], next_idx := U.next_idx,
           suggestion := L.suggestion, stop := false }) ∧
     (L.success = false → U.success = false → S.success = true →
       sep_step src argv options flags ws idx =
         { positionals := [], resolved := S.resolved, errs_appended := [],
           errs_prepended := [], next_idx := S.next_idx,
           suggestion := (match S.suggestion with
             | some sg => some sg
             | none => L.suggestion)
           stop := false })) := by
  have hne : argv.getD idx [] ≠ ['-', '-'] := by
    intro he
    rw [he] at h3
    exact h3 rfl
  refine ⟨fun hL hU hS => ?_, fun hL => ?_, fun hL hU => ?_,
    fun hL hU hS => ?_⟩ <;>
    simp only [sep_step, if_neg hne, if_neg h3, h1, h2, and_self, if_true,
      hL] <;>
    first
      | rfl
      | (simp only [hU] ; first | rfl | (simp only [hS] ; rfl))

/-- Witness for C7: `-zz` against the `-v` catalog: the long, unseparated
and combined-short parses all fail (the long parse leaves the cursor in
place), the reported errors are the short errors followed by the long
error, and the token is skipped. -/
theorem sep_single_dash_errors_witness :
    sep_step exSrc ["-zz".toList] [exOptV] {} false 0 =
      { positionals := [], resolved := [], errs_appended := [],
        errs_prepended :=
          ((parse_unseparated_short exSrc ["-zz".toList] {}
              (parse_long exSrc ["-zz".toList] otype.single_long {} 0
                [exOptV] false).next_idx [exOptV]).errors
            ++ (parse_short exSrc ["-zz".toList] {}
              (parse_long exSrc ["-zz".toList] otype.single_long {} 0
                [exOptV] false).next_idx [exOptV] false).errors)
            ++ (parse_long exSrc ["-zz".toList] otype.single_long {} 0
                [exOptV] false).errors,
        next_idx := (parse_short exSrc ["-zz".toList] {}
          (parse_long exSrc ["-zz".toList] otype.single_long {} 0
            [exOptV] false).next_idx [exOptV] false).next_idx + 1,
        suggestion := (match (parse_short exSrc ["-zz".toList] {}
            (parse_long exSrc ["-zz".toList] otype.single_long {} 0
              [exOptV] false).next_idx [exOptV] false).suggestion with
          | some sg => some sg
          | none => (parse_long exSrc ["-zz".toList] otype.single_long {} 0
              [exOptV] false).suggestion)
        stop := false } :=
  (sep_single_dash_errors exSrc ["-zz".toList] [exOptV] {} false 0
    (by decide) (by decide) (by decide)).1 (by decide) (by decide) (by decide)

/-! ## Bit-vector lemmas for `unused_arguments` (C4) -/

theorem getD_set_bool (w : List Bool) (p u : Nat) (b : Bool) :
    (w.set p b).getD u false =
      if p = u ∧ u < w.length then b else w.getD u false := by
  rw [List.getD_eq_getElem?_getD, List.getD_eq_getElem?_getD,
    List.getElem?_set]
  by_cases h : p = u
  · subst h
    by_cases hl : p < w.length
    · simp [hl]
    · simp [hl, List.getElem?_eq_none (by omega : w.length ≤ p)]
  · rw [if_neg h, if_neg (fun hc => h hc.1)]

theorem foldl_length_pres {α : Type} (f : List Bool → α → List Bool)
    (h : ∀ v a, (f v a).length = v.length) (ids : List α) (v : List Bool) :
    (ids.foldl f v).length = v.length := by
  induction ids generalizing v with
  | nil => rfl
  | cons a rest ih => rw [List.foldl_cons, ih, h]

theorem mark_used_length (ctx : mctx) (s : match_state_t) (v : List Bool)
    (i : Nat) : (mark_used ctx s v i).length = v.length := by
  unfold mark_used
  split
  · split
    · split <;> simp [List.length_set]
    · rfl
  · rfl

theorem unmark_unconsumed_length (ctx : mctx) (s : match_state_t)
    (v : List Bool) (i : Nat) :
    (unmark_unconsumed ctx s v i).length = v.length := by
  unfold unmark_unconsumed
  split
  · split <;> simp [List.length_set]
  · rfl

theorem set_true_getD_mono (v : List Bool) (p u : Nat)
    (h : v.getD u false = true) : (v.set p true).getD u false = true := by
  rw [getD_set_bool]
  split
  · rfl
  · exact h

theorem mark_used_mono (ctx : mctx) (s : match_state_t) (v : List Bool)
    (i u : Nat) (h : v.getD u false = true) :
    (mark_used ctx s v i).getD u false = true := by
  unfold mark_used
  split
  · split
    · split
      · exact set_true_getD_mono _ _ _ (set_true_getD_mono _ _ _ h)
      · exact set_true_getD_mono _ _ _ h
    · exact h
  · exact h

theorem foldl_mark_mono {α : Type} (f : List Bool → α → List Bool)
    (hmono : ∀ v a u, v.getD u false = true → (f v a).getD u false = true)
    (ids : List α) (v : List Bool) (u : Nat) (h : v.getD u false = true) :
    (ids.foldl f v).getD u false = true := by
  induction ids generalizing v with
  | nil => exact h
  | cons a rest ih => exact ih _ (hmono v a u h)

theorem foldl_set_true_hit (l : List Nat) (v : List Bool) (u : Nat)
    (hu : u ∈ l) (hlen : u < v.length) :
    (l.foldl (fun w p => w.set p true) v).getD u false = true := by
  induction l generalizing v with
  | nil => cases hu
  | cons a rest ih =>
    rw [List.foldl_cons]
    rcases List.mem_cons.mp hu with rfl | hu'
    · refine foldl_mark_mono _ (fun v a u h => set_true_getD_mono v a u h)
        rest _ u ?_
      rw [getD_set_bool, if_pos ⟨rfl, hlen⟩]
    · exact ih _ hu' (by simpa [List.length_set] using hlen)

theorem foldl_mark_used_hit (ctx : mctx) (s : match_state_t) (ids : List Nat)
    (v : List Bool) (u i : Nat) (hi : i ∈ ids)
    (hc : s.consumed_options.getD i false = true)
    (ro : resolved_option_t) (hro : ctx.resolved_options[i]? = some ro)
    (hhit : ro.name_idx_in_argv = u ∨ ro.value_idx_in_argv = some u)
    (hlen : u < v.length) :
    (ids.foldl (mark_used ctx s) v).getD u false = true := by
  induction ids generalizing v with
  | nil => cases hi
  | cons a rest ih =>
    rw [List.foldl_cons]
    rcases List.mem_cons.mp hi with rfl | hi'
    · refine foldl_mark_mono _ (fun v j u h => mark_used_mono ctx s v j u h)
        rest _ u ?_
      unfold mark_used
      rw [hc, if_pos rfl, hro]
      dsimp only
      rcases hhit with rfl | hval
      · rcases hv : ro.value_idx_in_argv with _ | vi
        · simp only [hv]
          rw [getD_set_bool, if_pos ⟨rfl, hlen⟩]
        · simp only [hv]
          refine set_true_getD_mono _ _ _ ?_
          rw [getD_set_bool, if_pos ⟨rfl, hlen⟩]
      · rw [hval]
        rw [getD_set_bool,
          if_pos ⟨rfl, by simpa [List.length_set] using hlen⟩]
    · exact ih _ hi' (by simpa [mark_used_length] using hlen)

theorem foldl_unmark_untouched (ctx : mctx) (s : match_state_t)
    (ids : List Nat) (v : List Bool) (u : Nat)
    (h : ∀ i ∈ ids, ¬ (s.consumed_options.getD i false = false ∧
      ∃ ro, ctx.resolved_options[i]? = some ro ∧ ro.name_idx_in_argv = u)) :
    (ids.foldl (unmark_unconsumed ctx s) v).getD u false =
      v.getD u false := by
  induction ids generalizing v with
  | nil => rfl
  | cons a rest ih =>
    rw [List.foldl_cons, ih _ (fun i hi => h i (List.mem_cons_of_mem _ hi))]
    unfold unmark_unconsumed
    rcases hc : s.consumed_options.getD a false with _ | _
    · rw [if_pos (by simp [hc])]
      rcases hro : ctx.resolved_options[a]? with _ | ro
      · rfl
      · have hne : ro.name_idx_in_argv ≠ u := fun he =>
          h a (List.mem_cons_self _ _) ⟨hc, ro, hro, he⟩
        rw [getD_set_bool, if_neg (fun hc' => hne hc'.1)]
    · rw [if_neg (by simp [hc])]

/-- C4 (amended): every unused index is in `[0, |argv|)`; and it can be an
index used by a consumed positional or by a consumed resolved option's
name/value slot only when it is also the name slot of some *unconsumed*
resolved option (which the final phase of `unused_arguments` unmarks). -/
theorem unused_arguments_amended (ctx : mctx) (s : match_state_t) :
    ∀ u ∈ unused_arguments ctx s,
      u < ctx.argv.length ∧
      ((u ∈ ctx.positionals.take s.next_positional_index ∨
        (∃ i, i < s.consumed_options.length ∧
          s.consumed_options.getD i false = true ∧
          ∃ ro, ctx.resolved_options[i]? = some ro ∧
            (ro.name_idx_in_argv = u ∨ ro.value_idx_in_argv = some u))) →
       ∃ j, j < s.consumed_options.length ∧
         s.consumed_options.getD j false = false ∧
         ∃ ro, ctx.resolved_options[j]? = some ro ∧
           ro.name_idx_in_argv = u) := by
  intro u hu
  rw [unused_arguments, List.mem_filter] at hu
  obtain ⟨hrange, hbit⟩ := hu
  have hun : u < ctx.argv.length := List.mem_range.mp hrange
  refine ⟨hun, fun hmark => ?_⟩
  by_contra hnone
  push_neg at hnone
  -- lengths of the intermediate bit vectors
  have hl0 : (List.replicate ctx.argv.length false).length =
      ctx.argv.length := by simp
  have hl1 : ((ctx.positionals.take s.next_positional_index).foldl
      (fun u p => u.set p true)
      (List.replicate ctx.argv.length false)).length = ctx.argv.length := by
    rw [foldl_length_pres _ (fun v a => by simp [List.length_set]), hl0]
  have hl2 : (((List.range s.consumed_options.length).foldl
      (mark_used ctx s)
      ((ctx.positionals.take s.next_positional_index).foldl
        (fun u p => u.set p true)
        (List.replicate ctx.argv.length false)))).length =
      ctx.argv.length := by
    rw [foldl_length_pres _ (fun v a => mark_used_length ctx s v a), hl1]
  -- the bit at u after phase 2 is set
  have hbit2 : (((List.range s.consumed_options.length).foldl
      (mark_used ctx s)
      ((ctx.positionals.take s.next_positional_index).foldl
        (fun u p => u.set p true)
        (List.replicate ctx.argv.length false)))).getD u false = true := by
    rcases hmark with hpos | ⟨i, hil, hic, ro, hro, hhit⟩
    · refine foldl_mark_mono _ (fun v j u h => mark_used_mono ctx s v j u h)
        _ _ u ?_
      exact foldl_set_true_hit _ _ u hpos (by rw [hl0]; exact hun)
    · exact foldl_mark_used_hit ctx s _ _ u i (List.mem_range.mpr hil) hic
        ro hro hhit (by rw [hl1]; exact hun)
  -- phase 3 does not touch u (no unconsumed option names it)
  have huntouched := foldl_unmark_untouched ctx s
    (List.range s.consumed_options.length)
    (((List.range s.consumed_options.length).foldl (mark_used ctx s)
      ((ctx.positionals.take s.next_positional_index).foldl
        (fun u p => u.set p true)
        (List.replicate ctx.argv.length false)))) u
    (fun i hi hcontra =>
      (hnone i (List.mem_range.mp hi) hcontra.1 hcontra.2.choose
        hcontra.2.choose_spec.1) hcontra.2.choose_spec.2)
  -- contradiction with the filter predicate
  have hlen3 : (((List.range s.consumed_options.length).foldl
      (unmark_unconsumed ctx s)
      (((List.range s.consumed_options.length).foldl (mark_used ctx s)
        ((ctx.positionals.take s.next_positional_index).foldl
          (fun u p => u.set p true)
          (List.replicate ctx.argv.length false)))))).length =
      ctx.argv.length := by
    rw [foldl_length_pres _ (fun v a => unmark_unconsumed_length ctx s v a),
      hl2]
  have : (((List.range s.consumed_options.length).foldl
      (unmark_unconsumed ctx s)
      (((List.range s.consumed_options.length).foldl (mark_used ctx s)
        ((ctx.positionals.take s.next_positional_index).foldl
          (fun u p => u.set p true)
          (List.replicate ctx.argv.length false)))))).getD u true = true := by
    rw [List.getD_eq_getElem?_getD,
      List.getElem?_eq_getElem (by rw [hlen3]; exact hun)]
    have h2 := huntouched.trans hbit2
    rw [List.getD_eq_getElem?_getD,
      List.getElem?_eq_getElem (by rw [hlen3]; exact hun)] at h2
    simpa using h2
  simp only [this, decide_not] at hbit
  simp at hbit

/-- Witness for C4 at the example parse: the single unused index `1` is
below `|argv| = 2`, and (being the name slot of the consumed first
resolved `-v`) it is indeed the name slot of the unconsumed second
resolved `-v`. -/
theorem unused_arguments_amended_witness :
    1 ∈ unused_arguments exCtx exBest ∧
    1 < exCtx.argv.length ∧
    (∃ j, j < exBest.consumed_options.length ∧
      exBest.consumed_options.getD j false = false ∧
      ∃ ro, exCtx.resolved_options[j]? = some ro ∧
        ro.name_idx_in_argv = 1) :=
  ⟨by decide,
   ((unused_arguments_amended exCtx exBest 1 (by decide)).1),
   ((unused_arguments_amended exCtx exBest 1 (by decide)).2
     (Or.inr ⟨0, by decide, by decide, exSep.resolved.getD 0 default,
       by decide, by decide⟩))⟩

/-- C4 (counterexample): in the `prog -vv` example the parse returns
unused = `[1]`, yet argv index 1 *is* the name slot of a consumed resolved
option of the selected best state — so the returned unused set is not
disjoint from the argv indices used by consumed resolved options. -/
theorem unused_disjointness_counterexample :
    exResult.unused = [1] ∧
    exResult.unused = unused_arguments exCtx exBest ∧
    exBest.consumed_options.getD 0 false = true ∧
    (∃ ro, exCtx.resolved_options[0]? = some ro ∧
      ro.name_idx_in_argv = 1) := by
  refine ⟨by decide, by decide, by decide,
    exSep.resolved.getD 0 default, by decide, by decide⟩

/-! ## Best-state selection (C1) -/

/-- Invariant-carrying correctness of the selection loop of `match_argv`:
starting from index `i` with the best-so-far `(bi, bu)`, the loop returns
the first index minimizing the unused-argument count. -/
theorem selectLoop_spec (ctx : mctx) (full : List match_state_t) :
    ∀ (rest : List match_state_t) (i bi : Nat) (bu : List Nat),
    rest = full.drop i →
    (i = 0 ∨
      (bi < i ∧ bi < full.length ∧
        bu = unused_arguments ctx (full.getD bi default) ∧ 0 < bu.length ∧
        (∀ j, j < i → bu.length ≤
          (unused_arguments ctx (full.getD j default)).length) ∧
        (∀ j, j < bi → bu.length <
          (unused_arguments ctx (full.getD j default)).length))) →
    0 < full.length →
    (selectLoop ctx rest i bi bu).1 < full.length ∧
    (selectLoop ctx rest i bi bu).2 =
      unused_arguments ctx
        (full.getD (selectLoop ctx rest i bi bu).1 default) ∧
    (∀ j, j < full.length →
      (selectLoop ctx rest i bi bu).2.length ≤
        (unused_arguments ctx (full.getD j default)).length) ∧
    (∀ j, j < (selectLoop ctx rest i bi bu).1 →
      (selectLoop ctx rest i bi bu).2.length <
        (unused_arguments ctx (full.getD j default)).length) := by
  intro rest
  induction rest with
  | nil =>
    intro i bi bu hdrop hinv hfull
    have hlen : full.length ≤ i := by
      have hcongr := congrArg List.length hdrop
      simp [List.length_drop] at hcongr
      omega
    rcases hinv with rfl | ⟨hbi, hbif, hbu, hpos, hall, hstrict⟩
    · omega
    · exact ⟨hbif, hbu ▸ rfl, fun j hj => hall j (by omega),
        fun j hj => hstrict j hj⟩
  | cons s rest' ih =>
    intro i bi bu hdrop hinv hfull
    have hi_lt : i < full.length := by
      by_contra hge
      push_neg at hge
      rw [List.drop_eq_nil_of_le hge] at hdrop
      cases hdrop
    have hs : full.getD i default = s := by
      have h0 : (full.drop i).getD 0 default = s := by
        rw [← hdrop]; rfl
      rw [List.getD_eq_getElem?_getD, List.getElem?_drop] at h0
      rw [List.getD_eq_getElem?_getD]
      simpa using h0
    have hrest' : rest' = full.drop (i + 1) := by
      have : full.drop (i + 1) = (full.drop i).drop 1 := by
        rw [List.drop_drop]
      rw [this, ← hdrop]
      rfl
    rw [selectLoop]
    by_cases hA : i = 0 ∨ (unused_arguments ctx s).length < bu.length
    · rw [if_pos hA]
      by_cases hz : (unused_arguments ctx s).length = 0
      · rw [if_pos hz]
        dsimp only
        refine ⟨hi_lt, by rw [hs], fun j hj => by omega, fun j hj => ?_⟩
        have hj0 : 0 < (unused_arguments ctx (full.getD j default)).length := by
          rcases hinv with rfl | ⟨hbi, hbif, hbu, hpos, hall, hstrict⟩
          · omega
          · rcases hA with rfl | hlt
            · omega
            · exact lt_of_lt_of_le hpos (hall j (by omega))
        omega
      · rw [if_neg hz]
        refine ih (i + 1) i (unused_arguments ctx s) hrest' (Or.inr ?_) hfull
        refine ⟨by omega, hi_lt, by rw [hs], by omega, ?_, ?_⟩
        · intro j hj
          rcases Nat.lt_succ_iff_lt_or_eq.mp hj with hj' | rfl
          · rcases hinv with rfl | ⟨hbi, hbif, hbu, hpos, hall, hstrict⟩
            · omega
            · rcases hA with rfl | hlt
              · omega
              · exact le_of_lt (lt_of_lt_of_le hlt (hall j hj'))
          · rw [hs]
        · intro j hj
          rcases hinv with rfl | ⟨hbi, hbif, hbu, hpos, hall, hstrict⟩
          · omega
          · rcases hA with rfl | hlt
            · omega
            · exact lt_of_lt_of_le hlt (hall j (by omega))
    · rw [if_neg hA]
      push_neg at hA
      obtain ⟨hi0, hge⟩ := hA
      rcases hinv with rfl | ⟨hbi, hbif, hbu, hpos, hall, hstrict⟩
      · omega
      · refine ih (i + 1) bi bu hrest' (Or.inr ?_) hfull
        refine ⟨by omega, hbif, hbu, hpos, ?_, hstrict⟩
        intro j hj
        rcases Nat.lt_succ_iff_lt_or_eq.mp hj with hj' | rfl
        · exact hall j hj'
        · rw [hs]
          exact hge

/-- C1: `match_argv` returns the (finalized) option map of the match state
with the fewest unused argv indices among all states produced by matching
the usage tree, together with that state's unused list; ties are broken by
the first-encountered state; and with no states at all the unused list is
exactly `[0, |argv|)` (and the empty map is finalized). -/
theorem match_argv_selects_best (src : Str) (tree : node) (flags : pflags)
    (positionals : List Nat) (resolved : List resolved_option_t)
    (argv : List Str) (all_options : List option_t)
    (all_variables all_statics : List range_t)
    (shortcuts : List option_t) :
    (matchNode ⟨flags, positionals, resolved, argv, shortcuts, src,
        treePool src tree shortcuts⟩ (ndepth tree + 1) false tree
        { consumed_options := List.replicate resolved.length false } = [] →
      match_argv src tree flags positionals resolved argv all_options
          all_variables all_statics shortcuts =
        { option_map := finalize_option_map src [] all_options all_variables
            all_statics flags
          unused := List.range argv.length }) ∧
    (matchNode ⟨flags, positionals, resolved, argv, shortcuts, src,
        treePool src tree shortcuts⟩ (ndepth tree + 1) false tree
        { consumed_options := List.replicate resolved.length false } ≠ [] →
      ∃ bi,
        (let ctx : mctx := ⟨flags, positionals, resolved, argv, shortcuts,
           src, treePool src tree shortcuts⟩
         let states := matchNode ctx (ndepth tree + 1) false tree
           { consumed_options := List.replicate resolved.length false }
         let res := match_argv src tree flags positionals resolved argv
           all_options all_variables all_statics shortcuts
         bi < states.length ∧
         res.unused = unused_arguments ctx (states.getD bi default) ∧
         res.option_map = finalize_option_map src
           (states.getD bi default).option_map all_options all_variables
           all_statics flags ∧
         (∀ j, j < states.length →
           (unused_arguments ctx (states.getD bi default)).length ≤
             (unused_arguments ctx (states.getD j default)).length) ∧
         (∀ j, j < bi →
           (unused_arguments ctx (states.getD bi default)).length <
             (unused_arguments ctx (states.getD j default)).length))) := by
  constructor
  · intro hempty
    simp only [match_argv]
    rw [if_pos (by rw [hempty]; rfl)]
  · intro hne
    refine ⟨(selectLoop ⟨flags, positionals, resolved, argv, shortcuts, src,
      treePool src tree shortcuts⟩
      (matchNode ⟨flags, positionals, resolved, argv, shortcuts, src,
        treePool src tree shortcuts⟩ (ndepth tree + 1) false tree
        { consumed_options := List.replicate resolved.length false })
      0 0 []).1, ?_⟩
    have hfull : 0 < (matchNode ⟨flags, positionals, resolved, argv,
        shortcuts, src, treePool src tree shortcuts⟩ (ndepth tree + 1)
        false tree
        { consumed_options := List.replicate resolved.length false }).length :=
      List.length_pos.mpr hne
    have hspec := selectLoop_spec
      ⟨flags, positionals, resolved, argv, shortcuts, src,
        treePool src tree shortcuts⟩
      (matchNode ⟨flags, positionals, resolved, argv, shortcuts, src,
        treePool src tree shortcuts⟩ (ndepth tree + 1) false tree
        { consumed_options := List.replicate resolved.length false })
      (matchNode ⟨flags, positionals, resolved, argv, shortcuts, src,
        treePool src tree shortcuts⟩ (ndepth tree + 1) false tree
        { consumed_options := List.replicate resolved.length false })
      0 0 [] (by rfl) (Or.inl rfl) hfull
    have hres : match_argv src tree flags positionals resolved argv
        all_options all_variables all_statics shortcuts =
      { option_map := finalize_option_map src
          ((matchNode ⟨flags, positionals, resolved, argv, shortcuts, src,
              treePool src tree shortcuts⟩ (ndepth tree + 1) false tree
              { consumed_options := List.replicate resolved.length false
              }).getD
            (selectLoop ⟨flags, positionals, resolved, argv, shortcuts, src,
              treePool src tree shortcuts⟩
              (matchNode ⟨flags, positionals, resolved, argv, shortcuts,
                src, treePool src tree shortcuts⟩ (ndepth tree + 1) false
                tree
                { consumed_options := List.replicate resolved.length false })
              0 0 []).1 default).option_map all_options all_variables
          all_statics flags
        unused := (selectLoop ⟨flags, positionals, resolved, argv,
          shortcuts, src, treePool src tree shortcuts⟩
          (matchNode ⟨flags, positionals, resolved, argv, shortcuts, src,
            treePool src tree shortcuts⟩ (ndepth tree + 1) false tree
            { consumed_options := List.replicate resolved.length false })
          0 0 []).2 } := by
      simp only [match_argv]
      rw [if_neg (by simpa [List.isEmpty_iff] using hne)]
    refine ⟨hspec.1, ?_, ?_, fun j hj => ?_, fun j hj => ?_⟩
    · rw [hres]
      exact hspec.2.1
    · rw [hres]
    · rw [← hspec.2.1]
      exact hspec.2.2.1 j hj
    · rw [← hspec.2.1]
      exact hspec.2.2.2 j hj

/-- Witness for C1 at the `prog -vv` example: the parse's result equals
the finalized map and unused list of the first-minimal state. -/
theorem match_argv_selects_best_witness :
    ∃ bi,
      bi < exStates.length ∧
      exResult.unused = unused_arguments exCtx (exStates.getD bi default) ∧
      exResult.option_map = finalize_option_map exSrc
        (exStates.getD bi default).option_map [exOptV] [] [] {} ∧
      (∀ j, j < exStates.length →
        (unused_arguments exCtx (exStates.getD bi default)).length ≤
          (unused_arguments exCtx (exStates.getD j default)).length) ∧
      (∀ j, j < bi →
        (unused_arguments exCtx (exStates.getD bi default)).length <
          (unused_arguments exCtx (exStates.getD j default)).length) :=
  (match_argv_selects_best exSrc exTree {} exSep.positionals exSep.resolved
    exArgv [exOptV] [] [] [exOptV]).2 (by decide)

/-! ## Option-map lemmas (shared) -/

theorem omLookup_omSet_self (m : omap) (k : Str) (v : arg_t) :
    omLookup (omSet m k v) k = some v := by
  induction m with
  | nil => simp [omSet, omLookup, List.find?]
  | cons p rest ih =>
    by_cases h : p.1 = k
    · simp [omSet, h, omLookup, List.find?]
    · simp only [omSet, if_neg h]
      simpa [omLookup, List.find?, h] using ih

theorem omLookup_omSet_ne (m : omap) (k : Str) (v : arg_t) (k' : Str)
    (h : k' ≠ k) : omLookup (omSet m k v) k' = omLookup m k' := by
  induction m with
  | nil => simp [omSet, omLookup, List.find?, Ne.symm h]
  | cons p rest ih =>
    by_cases hp : p.1 = k
    · subst hp
      simp [omSet, omLookup, List.find?, Ne.symm h]
    · simp only [omSet, if_neg hp]
      by_cases hp' : p.1 = k'
      · simp [omLookup, List.find?, hp']
      · simpa [omLookup, List.find?, hp'] using ih

/-- Presence in the map is never destroyed by a store. -/
theorem omLookup_omSet_present (m : omap) (k : Str) (v : arg_t) (k' : Str)
    (a : arg_t) (h : omLookup m k' = some a) :
    ∃ b, omLookup (omSet m k v) k' = some b := by
  by_cases hk : k' = k
  · subst hk
    exact ⟨v, omLookup_omSet_self m k' v⟩
  · exact ⟨a, (omLookup_omSet_ne m k v k' hk).trans h⟩

/-- `map[k'];` (insert-if-absent) preserves existing bindings exactly. -/
theorem omLookup_omEnsure_present (m : omap) (k' k : Str) (a : arg_t)
    (h : omLookup m k = some a) :
    omLookup (omEnsure m k') k = some a := by
  by_cases hk : k' = k
  · subst hk
    have : omGetD m k' = a := by simp [omGetD, h]
    rw [omEnsure, this]
    exact omLookup_omSet_self m k' a
  · rw [omEnsure, omLookup_omSet_ne m k' _ k (fun he => hk he.symm)]
    exact h

/-- The step of the options loop in `finalize_option_map`. -/
def finStep (src : Str) (m : omap) (opt : option_t) : omap :=
  let name := opt.longest_name_as_string src
  let a := omGetD m name
  let a := if ¬ opt.default_value_range.isEmpty ∧ a.values.isEmpty then
      { a with values := [substr src opt.default_value_range] }
    else a
  omSet m name a

theorem finStep_present (src : Str) (m : omap) (opt : option_t) (k : Str)
    (a : arg_t) (h : omLookup m k = some a) :
    ∃ b, omLookup (finStep src m opt) k = some b :=
  omLookup_omSet_present m _ _ k a h

theorem finStep_self (src : Str) (m : omap) (opt : option_t) :
    ∃ b, omLookup (finStep src m opt) (opt.longest_name_as_string src) =
      some b :=
  ⟨_, omLookup_omSet_self m _ _⟩

theorem finStep_untouched (src : Str) (m : omap) (opt : option_t) (k : Str)
    (h : opt.longest_name_as_string src ≠ k) :
    omLookup (finStep src m opt) k = omLookup m k :=
  omLookup_omSet_ne m _ _ k (fun he => h he.symm)

/-- After the options fold every processed option's key is present, and
presence is preserved. -/
theorem finFold_present (src : Str) (l : List option_t) (m : omap) (k : Str)
    (h : (∃ a, omLookup m k = some a) ∨
      (∃ opt ∈ l, opt.longest_name_as_string src = k)) :
    ∃ a, omLookup (l.foldl (finStep src) m) k = some a := by
  induction l generalizing m with
  | nil =>
    rcases h with ⟨a, ha⟩ | ⟨opt, hmem, _⟩
    · exact ⟨a, ha⟩
    · cases hmem
  | cons opt rest ih =>
    rw [List.foldl_cons]
    rcases h with ⟨a, ha⟩ | ⟨o, hmem, hk⟩
    · exact ih _ (Or.inl ((finStep_present src m opt k a ha)))
    · rcases List.mem_cons.mp hmem with rfl | hmem'
      · subst hk
        exact ih _ (Or.inl (finStep_self src m o))
      · exact ih _ (Or.inr ⟨o, hmem', hk⟩)

/-- Keys not named by any option in the list are untouched by the fold. -/
theorem finFold_untouched (src : Str) (l : List option_t) (m : omap)
    (k : Str) (h : ∀ opt ∈ l, opt.longest_name_as_string src ≠ k) :
    omLookup (l.foldl (finStep src) m) k = omLookup m k := by
  induction l generalizing m with
  | nil => rfl
  | cons opt rest ih =>
    rw [List.foldl_cons,
      ih _ (fun o ho => h o (List.mem_cons_of_mem _ ho)),
      finStep_untouched src m opt k (h opt (List.mem_cons_self _ _))]

/-- The `omEnsure` folds (variables, static arguments) preserve existing
bindings exactly. -/
theorem ensureFold_present {α : Type} (f : α → Str) (l : List α) (m : omap)
    (k : Str) (a : arg_t) (h : omLookup m k = some a) :
    omLookup (l.foldl (fun m x => omEnsure m (f x)) m) k = some a := by
  induction l generalizing m with
  | nil => exact h
  | cons x rest ih =>
    rw [List.foldl_cons]
    exact ih _ (omLookup_omEnsure_present m (f x) k a h)

/-- The `omEnsure` folds make every listed key present. -/
theorem ensureFold_mem {α : Type} (f : α → Str) (l : List α) (m : omap)
    (k : Str)
    (h : (∃ a, omLookup m k = some a) ∨ (∃ x ∈ l, f x = k)) :
    ∃ a, omLookup (l.foldl (fun m x => omEnsure m (f x)) m) k = some a := by
  induction l generalizing m with
  | nil =>
    rcases h with ⟨a, ha⟩ | ⟨x, hx, _⟩
    · exact ⟨a, ha⟩
    · cases hx
  | cons x rest ih =>
    rw [List.foldl_cons]
    rcases h with ⟨a, ha⟩ | ⟨y, hy, hk⟩
    · exact ih _ (Or.inl ⟨a, omLookup_omEnsure_present m (f x) k a ha⟩)
    · rcases List.mem_cons.mp hy with rfl | hy'
      · subst hk
        refine ih _ (Or.inl ⟨omGetD m (f y), ?_⟩)
        exact omLookup_omSet_self m (f y) _
      · exact ih _ (Or.inr ⟨y, hy', hk⟩)

/-- Helper for C6: every survivor of the shortcut-excision loop differs in
name from every usage option. -/
theorem excise_shortcuts_spec (src : Str) (shortcut usage : List option_t) :
    ∀ o ∈ excise_shortcuts src shortcut usage, ∀ u ∈ usage,
      option_t.has_same_name src o u = false := by
  induction shortcut with
  | nil => intro o ho; cases ho
  | cons s rest ih =>
    intro o ho u hu
    by_cases hany : usage.any (fun u => option_t.has_same_name src s u) = true
    · rw [excise_shortcuts, if_pos hany] at ho
      exact ih o ho u hu
    · rw [excise_shortcuts, if_neg hany] at ho
      rcases List.mem_cons.mp ho with rfl | ho'
      · rcases hres : option_t.has_same_name src o u with _ | _
        · rfl
        · exact absurd (List.any_eq_true.mpr ⟨u, hu, hres⟩) hany
      · exact ih o ho' u hu

/-- C6: after a successful `preflight`, no remaining shortcut option has
the same key-name as any option collected from the `Usage:` section. -/
theorem preflight_shortcut_excision (src : Str)
    (pu : Str → range_t → List option_t → Option node × List err)
    (hsucc : (preflight src pu).success = true) :
    ∀ o ∈ (preflight src pu).shortcut_options,
      ∀ u ∈ (preflight src pu).usage_options,
        option_t.has_same_name src o u = false := by
  revert hsucc
  simp only [preflight]
  split
  · intro h; cases h
  · split
    · intro h; cases h
    · split
      · intro h; cases h
      · intro _
        exact excise_shortcuts_spec src _ _

/-- Witness for C6: the doc `Usage: prog [-v]` with options `-v` and `-q`;
preflight succeeds, `-v` is excised, and the surviving `-q` does not share
a name with the usage's `-v`. -/
theorem preflight_shortcut_excision_witness :
    (preflight pfSrc pfPu).success = true ∧
    (∀ o ∈ (preflight pfSrc pfPu).shortcut_options,
      ∀ u ∈ (preflight pfSrc pfPu).usage_options,
        option_t.has_same_name pfSrc o u = false) :=
  ⟨by decide, preflight_shortcut_excision pfSrc pfPu (by decide)⟩

/-- C8: `preflight` returns `false` exactly when the doc has no `Usage:`
section, more than one `Usage:` section, or the external grammar parser
fails to produce a tree; and when it returns `true`, the error list is the
accumulation of the option-spec, deduplication, grammar and condition
errors (in that order), so non-structural doc-parse errors do not make it
fail. -/
theorem preflight_false_iff (src : Str)
    (pu : Str → range_t → List option_t → Option node × List err) :
    ((preflight src pu).success = false ↔
      (source_ranges_for_section src "Usage:".toList = [] ∨
       1 < (source_ranges_for_section src "Usage:".toList).length ∨
       (pu src ((source_ranges_for_section src "Usage:".toList).getD 0 ⟨0, 0⟩)
          (uniqueize_options src true (parse_options_spec src).1).1).1 =
         none)) ∧
    ((preflight src pu).success = true →
      (preflight src pu).errors =
        (parse_options_spec src).2 ++
        (uniqueize_options src true (parse_options_spec src).1).2 ++
        (pu src ((source_ranges_for_section src "Usage:".toList).getD 0 ⟨0, 0⟩)
          (uniqueize_options src true (parse_options_spec src).1).1).2 ++
        (uniqueize_options src false
          ((match (pu src
              ((source_ranges_for_section src "Usage:".toList).getD 0 ⟨0, 0⟩)
              (uniqueize_options src true (parse_options_spec src).1).1).1 with
            | some tree => collectOptions tree
            | none => []) ++
           (uniqueize_options src true (parse_options_spec src).1).1)).2 ++
        (parse_conditions_spec src).2) := by
  constructor
  · simp only [preflight]
    split
    · rename_i hempty
      refine ⟨fun _ => Or.inl ?_, fun _ => rfl⟩
      simpa using hempty
    · rename_i hne
      split
      · rename_i hgt
        exact ⟨fun _ => Or.inr (Or.inl hgt), fun _ => rfl⟩
      · rename_i hle
        split
        · rename_i hnone
          exact ⟨fun _ => Or.inr (Or.inr hnone), fun _ => rfl⟩
        · rename_i tree hsome
          constructor
          · intro h; cases h
          · intro h
            rcases h with h | h | h
            · exact absurd (by rw [h]; rfl : (source_ranges_for_section src
                "Usage:".toList).isEmpty = true) hne
            · exact absurd h hle
            · rw [hsome] at h; cases h
  · simp only [preflight]
    split
    · intro h; cases h
    · split
      · intro h; cases h
      · split
        · intro h; cases h
        · rename_i tree hsome
          intro _
          rw [hsome]

/-- Witness for C8: on the two-option doc the preflight succeeds and its
error list is exactly the accumulated phase errors. -/
theorem preflight_false_iff_witness :
    (preflight pfSrc pfPu).errors =
      (parse_options_spec pfSrc).2 ++
      (uniqueize_options pfSrc true (parse_options_spec pfSrc).1).2 ++
      (pfPu pfSrc
        ((source_ranges_for_section pfSrc "Usage:".toList).getD 0 ⟨0, 0⟩)
        (uniqueize_options pfSrc true (parse_options_spec pfSrc).1).1).2 ++
      (uniqueize_options pfSrc false
        ((match (pfPu pfSrc
            ((source_ranges_for_section pfSrc "Usage:".toList).getD 0 ⟨0, 0⟩)
            (uniqueize_options pfSrc true (parse_options_spec pfSrc).1).1).1 with
          | some tree => collectOptions tree
          | none => []) ++
         (uniqueize_options pfSrc true (parse_options_spec pfSrc).1).1)).2 ++
      (parse_conditions_spec pfSrc).2 :=
  (preflight_false_iff pfSrc pfPu).2 (by decide)

/-- C2: with `flag_generate_empty_args`, the finalized map has an entry
for every option in `all_options` (keyed by its longest name), every
`Usage:` variable, and every `Usage:` fixed command; and every catalog
option with a non-empty `default_value_range` whose entry had no values
gets the default text as that entry's single value (the option keys are
pairwise distinct after deduplication, which we take as a hypothesis). -/
theorem finalize_option_map_spec (src : Str) (map : omap)
    (all_options : List option_t) (all_variables all_statics : List range_t)
    (flags : pflags) (hflag : flags.generate_empty_args = true)
    (hkeys : all_options.Pairwise (fun o1 o2 =>
      o1.longest_name_as_string src ≠ o2.longest_name_as_string src)) :
    (∀ opt ∈ all_options, ∃ a,
      omLookup (finalize_option_map src map all_options all_variables
          all_statics flags)
        (opt.longest_name_as_string src) = some a) ∧
    (∀ r ∈ all_variables, ∃ a,
      omLookup (finalize_option_map src map all_options all_variables
          all_statics flags) (substr src r) = some a) ∧
    (∀ r ∈ all_statics, ∃ a,
      omLookup (finalize_option_map src map all_options all_variables
          all_statics flags) (substr src r) = some a) ∧
    (∀ opt ∈ all_options, ¬ opt.default_value_range.isEmpty →
      (omGetD map (opt.longest_name_as_string src)).values = [] →
      omLookup (finalize_option_map src map all_options all_variables
          all_statics flags) (opt.longest_name_as_string src) =
        some { omGetD map (opt.longest_name_as_string src) with
                values := [substr src opt.default_value_range] }) := by
  have hdef : finalize_option_map src map all_options all_variables
      all_statics flags =
    all_statics.foldl (fun m r => omEnsure m (substr src r))
      (all_variables.foldl (fun m r => omEnsure m (substr src r))
        (all_options.foldl (finStep src) map)) := by
    unfold finalize_option_map
    rw [if_neg (by simp [hflag])]
    rfl
  refine ⟨?_, ?_, ?_, ?_⟩
  · intro opt hmem
    rw [hdef]
    obtain ⟨a, ha⟩ :=
      finFold_present src all_options map _ (Or.inr ⟨opt, hmem, rfl⟩)
    obtain ⟨b, hb⟩ := ensureFold_mem (fun r => substr src r) all_variables _ _
      (Or.inl ⟨a, ha⟩)
    exact ensureFold_mem (fun r => substr src r) all_statics _ _
      (Or.inl ⟨b, hb⟩)
  · intro r hmem
    rw [hdef]
    obtain ⟨b, hb⟩ := ensureFold_mem (fun r => substr src r) all_variables _
      (substr src r) (Or.inr ⟨r, hmem, rfl⟩)
    exact ensureFold_mem (fun r => substr src r) all_statics _ _
      (Or.inl ⟨b, hb⟩)
  · intro r hmem
    rw [hdef]
    exact ensureFold_mem (fun r => substr src r) all_statics _ (substr src r)
      (Or.inr ⟨r, hmem, rfl⟩)
  · intro opt hmem hdflt hvals
    rw [hdef]
    obtain ⟨l1, l2, rfl⟩ := List.append_of_mem hmem
    have hpair := hkeys
    rw [List.pairwise_append] at hpair
    obtain ⟨_, hp2, hp12⟩ := hpair
    rw [List.pairwise_cons] at hp2
    have h1 : ∀ o ∈ l1, o.longest_name_as_string src ≠
        opt.longest_name_as_string src :=
      fun o ho => hp12 o ho opt (List.mem_cons_self _ _)
    have h2 : ∀ o ∈ l2, opt.longest_name_as_string src ≠
        o.longest_name_as_string src := hp2.1
    rw [List.foldl_append, List.foldl_cons]
    have hu1 : omLookup (l1.foldl (finStep src) map)
        (opt.longest_name_as_string src) =
        omLookup map (opt.longest_name_as_string src) :=
      finFold_untouched src l1 map _ h1
    have hg1 : omGetD (l1.foldl (finStep src) map)
        (opt.longest_name_as_string src) =
        omGetD map (opt.longest_name_as_string src) := by
      unfold omGetD
      rw [hu1]
    have hstep : omLookup (finStep src (l1.foldl (finStep src) map) opt)
        (opt.longest_name_as_string src) =
        some { omGetD map (opt.longest_name_as_string src) with
                values := [substr src opt.default_value_range] } := by
      simp only [finStep]
      rw [omLookup_omSet_self, hg1, if_pos ⟨hdflt, by simp [hvals]⟩]
    have hu2 : omLookup (l2.foldl (finStep src)
        (finStep src (l1.foldl (finStep src) map) opt))
        (opt.longest_name_as_string src) =
        some { omGetD map (opt.longest_name_as_string src) with
                values := [substr src opt.default_value_range] } := by
      rw [finFold_untouched src l2 _ _ (fun o ho => fun he =>
        h2 o ho he.symm)]
      exact hstep
    have hu3 := ensureFold_present (fun r => substr src r) all_variables _ _
      _ hu2
    exact ensureFold_present (fun r => substr src r) all_statics _ _ _ hu3

/-- Witness for C2: a one-option catalog `-m` with `[default: hi]`:
finalizing the empty map yields an entry for `-m` holding `hi`. -/
theorem finalize_option_map_spec_witness :
    omLookup
      (finalize_option_map fSrc [] [fOptM] [] []
        { generate_empty_args := true })
      (fOptM.longest_name_as_string fSrc) =
      some { omGetD ([] : omap) (fOptM.longest_name_as_string fSrc) with
              values := [substr fSrc fOptM.default_value_range] } :=
  (finalize_option_map_spec fSrc [] [fOptM] [] []
    { generate_empty_args := true } (by decide) (by simp)).2.2.2 fOptM
    (by simp) (by decide) (by decide)

/-! ## Progress lemmas for the matcher (C3) -/

theorem countTrues_cons (b : Bool) (l : List Bool) :
    countTrues (b :: l) = (if b then 1 else 0) + countTrues l := by
  cases b <;> simp [countTrues, Nat.add_comm]

theorem countTrues_le_length (l : List Bool) : countTrues l ≤ l.length :=
  List.length_filter_le _ _

theorem countTrues_set_true_ge (l : List Bool) :
    ∀ i, countTrues l ≤ countTrues (l.set i true) := by
  induction l with
  | nil => intro i; simp [List.set]
  | cons b tl ih =>
    intro i
    cases i with
    | zero =>
      rw [List.set_cons_zero, countTrues_cons, countTrues_cons]
      cases b <;> simp
    | succ j =>
      rw [List.set_cons_succ, countTrues_cons, countTrues_cons]
      exact Nat.add_le_add_left (ih j) _

/-- An invariant-satisfying state cannot progress past the bound. -/
theorem progress_le_bound (ctx : mctx) (s : match_state_t)
    (h : stateInv ctx s) : s.progress ≤ progressBound ctx := by
  obtain ⟨hc, hp, hs⟩ := h
  unfold match_state_t.progress progressBound
  have h1 : countTrues s.consumed_options ≤ ctx.resolved_options.length :=
    hc ▸ countTrues_le_length _
  have h2 : s.suggested_next_arguments.card ≤ ctx.pool.card :=
    Finset.card_le_card hs
  omega

/-- Membership in the progress-filtered re-application: every output comes
from an input state via the child match, with changed progress. -/
theorem tryMatchReqFn_mem (cm : match_state_t → List match_state_t)
    (states : List match_state_t) (t : match_state_t)
    (h : t ∈ tryMatchReqFn cm states) :
    ∃ s ∈ states, t ∈ cm s ∧ t.progress ≠ s.progress := by
  unfold tryMatchReqFn at h
  obtain ⟨s, hs, ht⟩ := List.mem_flatMap.mp h
  obtain ⟨ht', hne⟩ := List.mem_filter.mp ht
  exact ⟨s, hs, ht', by simpa using hne⟩

/-- `mo_consume` leaves the positional cursor untouched. -/
theorem mo_consume_npi (ctx : mctx) (opt : option_t) (s : match_state_t)
    (i : Nat) :
    (mo_consume ctx opt s i).next_positional_index =
      s.next_positional_index := rfl

/-- `mo_consume` leaves the suggestion set untouched. -/
theorem mo_consume_sugg (ctx : mctx) (opt : option_t) (s : match_state_t)
    (i : Nat) :
    (mo_consume ctx opt s i).suggested_next_arguments =
      s.suggested_next_arguments := rfl

/-- `mo_consume` sets exactly the consumed bit `i`. -/
theorem mo_consume_consumed (ctx : mctx) (opt : option_t)
    (s : match_state_t) (i : Nat) :
    (mo_consume ctx opt s i).consumed_options =
      s.consumed_options.set i true := rfl

/-- The core loop of `match_options` leaves the positional cursor and
suggestions untouched, only sets consumed bits, and stages only options
from its input list as potential suggestions. -/
theorem mo_loop_facts (ctx : mctx) :
    ∀ (opts : List option_t) (s : match_state_t) (mlr : List range_t)
      (ps : List option_t) (sm : Bool),
      (mo_loop ctx opts s mlr ps sm).1.next_positional_index =
        s.next_positional_index ∧
      (mo_loop ctx opts s mlr ps sm).1.suggested_next_arguments =
        s.suggested_next_arguments ∧
      (mo_loop ctx opts s mlr ps sm).1.consumed_options.length =
        s.consumed_options.length ∧
      countTrues s.consumed_options ≤
        countTrues (mo_loop ctx opts s mlr ps sm).1.consumed_options ∧
      (∀ o ∈ (mo_loop ctx opts s mlr ps sm).2.2.1, o ∈ ps ∨ o ∈ opts) := by
  intro opts
  induction opts with
  | nil =>
    intro s mlr ps sm
    exact ⟨rfl, rfl, rfl, le_refl _, fun o ho => Or.inl ho⟩
  | cons opt rest ih =>
    intro s mlr ps sm
    rw [mo_loop]
    split
    · obtain ⟨h1, h2, h3, h4, h5⟩ := ih s mlr ps sm
      exact ⟨h1, h2, h3, h4, fun o ho =>
        (h5 o ho).imp id (List.mem_cons_of_mem _)⟩
    · split
      · rename_i i hi
        dsimp only
        obtain ⟨h1, h2, h3, h4, h5⟩ := ih (mo_consume ctx opt s i)
          (if ¬ opt.corresponding_long_name.isEmpty = true then
            mlr ++ [opt.corresponding_long_name] else mlr) ps true
        refine ⟨?_, ?_, ?_, ?_, ?_⟩
        · rw [h1, mo_consume_npi]
        · rw [h2, mo_consume_sugg]
        · rw [h3, mo_consume_consumed, List.length_set]
        · refine le_trans (countTrues_set_true_ge s.consumed_options i) ?_
          have he : countTrues (s.consumed_options.set i true) =
              countTrues (mo_consume ctx opt s i).consumed_options := by
            rw [mo_consume_consumed]
          rw [he]
          exact h4
        · intro o ho
          rcases h5 o ho with h | h
          · exact Or.inl h
          · exact Or.inr (List.mem_cons_of_mem _ h)
      · obtain ⟨h1, h2, h3, h4, h5⟩ := ih s mlr
          (if ctx.flags.generate_suggestions then ps ++ [opt] else ps) sm
        refine ⟨h1, h2, h3, h4, fun o ho => ?_⟩
        rcases h5 o ho with hps | hrest
        · by_cases hg : ctx.flags.generate_suggestions
          · rw [if_pos hg] at hps
            rcases List.mem_append.mp hps with hl | hr
            · exact Or.inl hl
            · simp only [List.mem_singleton] at hr
              exact Or.inr (hr ▸ List.mem_cons_self _ _)
          · rw [if_neg hg] at hps
            exact Or.inl hps
        · exact Or.inr (List.mem_cons_of_mem _ hrest)

/-- The suggestion-staging pass only inserts names of the staged options
and touches nothing else. -/
theorem mo_suggest_facts (ctx : mctx) (mlr : List range_t) :
    ∀ (ps : List option_t) (acc : match_state_t × Bool),
      (ps.foldl (fun acc sug =>
        if sug.corresponding_long_name.isEmpty ∨
            sug.corresponding_long_name ∉ mlr then
          let sg := insert (sug.name_as_string ctx.src)
            acc.1.suggested_next_arguments
          ({ acc.1 with suggested_next_arguments := sg }, true)
        else acc) acc).1.next_positional_index =
          acc.1.next_positional_index ∧
      (ps.foldl (fun acc sug =>
        if sug.corresponding_long_name.isEmpty ∨
            sug.corresponding_long_name ∉ mlr then
          let sg := insert (sug.name_as_string ctx.src)
            acc.1.suggested_next_arguments
          ({ acc.1 with suggested_next_arguments := sg }, true)
        else acc) acc).1.consumed_options = acc.1.consumed_options ∧
      acc.1.suggested_next_arguments ⊆
        (ps.foldl (fun acc sug =>
          if sug.corresponding_long_name.isEmpty ∨
              sug.corresponding_long_name ∉ mlr then
            let sg := insert (sug.name_as_string ctx.src)
              acc.1.suggested_next_arguments
            ({ acc.1 with suggested_next_arguments := sg }, true)
          else acc) acc).1.suggested_next_arguments ∧
      (∀ x ∈ (ps.foldl (fun acc sug =>
          if sug.corresponding_long_name.isEmpty ∨
              sug.corresponding_long_name ∉ mlr then
            let sg := insert (sug.name_as_string ctx.src)
              acc.1.suggested_next_arguments
            ({ acc.1 with suggested_next_arguments := sg }, true)
          else acc) acc).1.suggested_next_arguments,
        x ∈ acc.1.suggested_next_arguments ∨
          ∃ o ∈ ps, x = o.name_as_string ctx.src) := by
  intro ps
  induction ps with
  | nil =>
    intro acc
    exact ⟨rfl, rfl, fun x hx => hx, fun x hx => Or.inl hx⟩
  | cons sug rest ih =>
    intro acc
    rw [List.foldl_cons]
    by_cases hc : sug.corresponding_long_name.isEmpty ∨
        sug.corresponding_long_name ∉ mlr
    · rw [if_pos hc]
      obtain ⟨h1, h2, h3, h4⟩ := ih _
      refine ⟨h1, h2, fun x hx => h3 (Finset.mem_insert_of_mem hx),
        fun x hx => ?_⟩
      rcases h4 x hx with hx' | ⟨o, ho, rfl⟩
      · rcases Finset.mem_insert.mp hx' with rfl | hx''
        · exact Or.inr ⟨sug, List.mem_cons_self _ _, rfl⟩
        · exact Or.inl hx''
      · exact Or.inr ⟨o, List.mem_cons_of_mem _ ho, rfl⟩
    · rw [if_neg hc]
      obtain ⟨h1, h2, h3, h4⟩ := ih acc
      exact ⟨h1, h2, h3, fun x hx =>
        (h4 x hx).imp id (fun ⟨o, ho, he⟩ =>
          ⟨o, List.mem_cons_of_mem _ ho, he⟩)⟩

/-- `mo_suggest` restated: cursor and consumed bits untouched, the
suggestion set only grows, by names of the staged options. -/
theorem mo_suggest_state (ctx : mctx) (mlr : List range_t)
    (ps : List option_t) (s1 : match_state_t) :
    (mo_suggest ctx mlr ps s1).1.next_positional_index =
      s1.next_positional_index ∧
    (mo_suggest ctx mlr ps s1).1.consumed_options = s1.consumed_options ∧
    s1.suggested_next_arguments ⊆
      (mo_suggest ctx mlr ps s1).1.suggested_next_arguments ∧
    (∀ x ∈ (mo_suggest ctx mlr ps s1).1.suggested_next_arguments,
      x ∈ s1.suggested_next_arguments ∨
        ∃ o ∈ ps, x = o.name_as_string ctx.src) := by
  unfold mo_suggest
  split
  · exact mo_suggest_facts ctx mlr ps (s1, false)
  · exact ⟨rfl, rfl, fun x hx => hx, fun x hx => Or.inl hx⟩

/-- `match_options` never decreases progress. -/
theorem match_options_mono (ctx : mctx) (opts : List option_t)
    (s t : match_state_t) (h : t ∈ match_options ctx opts s) :
    s.progress ≤ t.progress := by
  have h' : t ∈ (if (mo_loop ctx opts s [] [] false).2.2.2 ∨
      (mo_suggest ctx (mo_loop ctx opts s [] [] false).2.1
        (mo_loop ctx opts s [] [] false).2.2.1
        (mo_loop ctx opts s [] [] false).1).2 then
      [(mo_suggest ctx (mo_loop ctx opts s [] [] false).2.1
        (mo_loop ctx opts s [] [] false).2.2.1
        (mo_loop ctx opts s [] [] false).1).1] else []) := h
  by_cases hc : (mo_loop ctx opts s [] [] false).2.2.2 ∨
      (mo_suggest ctx (mo_loop ctx opts s [] [] false).2.1
        (mo_loop ctx opts s [] [] false).2.2.1
        (mo_loop ctx opts s [] [] false).1).2
  · rw [if_pos hc] at h'
    simp only [List.mem_singleton] at h'
    subst h'
    obtain ⟨m1, m2, m3, m4, _⟩ := mo_loop_facts ctx opts s [] [] false
    obtain ⟨f1, f2, f3, _⟩ := mo_suggest_state ctx
      (mo_loop ctx opts s [] [] false).2.1
      (mo_loop ctx opts s [] [] false).2.2.1
      (mo_loop ctx opts s [] [] false).1
    unfold match_state_t.progress
    rw [f1, f2, m1]
    have hcard : s.suggested_next_arguments.card ≤
        Finset.card
          (mo_suggest ctx (mo_loop ctx opts s [] [] false).2.1
            (mo_loop ctx opts s [] [] false).2.2.1
            (mo_loop ctx opts s [] [] false).1).1.suggested_next_arguments :=
      Finset.card_le_card (m2 ▸ f3)
    omega
  · rw [if_neg hc] at h'
    exact absurd h' (List.not_mem_nil t)

/-- `match_options` preserves the state invariant when the listed options
name only pool members. -/
theorem match_options_inv (ctx : mctx) (opts : List option_t)
    (s t : match_state_t)
    (hn : ∀ o ∈ opts, o.name_as_string ctx.src ∈ ctx.pool)
    (hs : stateInv ctx s) (h : t ∈ match_options ctx opts s) :
    stateInv ctx t := by
  have h' : t ∈ (if (mo_loop ctx opts s [] [] false).2.2.2 ∨
      (mo_suggest ctx (mo_loop ctx opts s [] [] false).2.1
        (mo_loop ctx opts s [] [] false).2.2.1
        (mo_loop ctx opts s [] [] false).1).2 then
      [(mo_suggest ctx (mo_loop ctx opts s [] [] false).2.1
        (mo_loop ctx opts s [] [] false).2.2.1
        (mo_loop ctx opts s [] [] false).1).1] else []) := h
  by_cases hc : (mo_loop ctx opts s [] [] false).2.2.2 ∨
      (mo_suggest ctx (mo_loop ctx opts s [] [] false).2.1
        (mo_loop ctx opts s [] [] false).2.2.1
        (mo_loop ctx opts s [] [] false).1).2
  · rw [if_pos hc] at h'
    simp only [List.mem_singleton] at h'
    subst h'
    obtain ⟨m1, m2, m3, _, m5⟩ := mo_loop_facts ctx opts s [] [] false
    obtain ⟨f1, f2, _, f4⟩ := mo_suggest_state ctx
      (mo_loop ctx opts s [] [] false).2.1
      (mo_loop ctx opts s [] [] false).2.2.1
      (mo_loop ctx opts s [] [] false).1
    obtain ⟨hcn, hpn, hsg⟩ := hs
    refine ⟨by rw [f2, m3]; exact hcn, by rw [f1, m1]; exact hpn, ?_⟩
    intro x hx
    rcases f4 x hx with hx' | ⟨o, ho, rfl⟩
    · exact hsg (m2 ▸ hx')
    · rcases m5 o ho with ho' | ho'
      · cases ho'
      · exact hn o ho'
  · rw [if_neg hc] at h'
    exact absurd h' (List.not_mem_nil t)

/-- The ellipsis loop is trivial on an empty intermediate set. -/
theorem ellipLoopFn_nil (cm : match_state_t → List match_state_t) :
    ∀ fuel, ellipLoopFn cm fuel [] = []
  | 0 => rfl
  | fuel + 1 => by rw [ellipLoopFn]; rfl

/-- Any property preserved by the child match is preserved along the
ellipsis repetition loop. -/
theorem ellipLoopFn_pres (cm : match_state_t → List match_state_t)
    (P : match_state_t → Prop)
    (hcm : ∀ a b, P a → b ∈ cm a → P b) :
    ∀ (fuel : Nat) (inter : List match_state_t) (t : match_state_t),
      (∀ x ∈ inter, P x) → t ∈ ellipLoopFn cm fuel inter → P t := by
  intro fuel
  induction fuel with
  | zero => intro inter t _ ht; exact absurd ht (List.not_mem_nil t)
  | succ fuel ih =>
    intro inter t hP ht
    rw [ellipLoopFn] at ht
    split at ht
    · exact absurd ht (List.not_mem_nil t)
    · dsimp only at ht
      rcases List.mem_append.mp ht with h | h
      · obtain ⟨x, hx, hcx, _⟩ := tryMatchReqFn_mem cm inter t h
        exact hcm x t (hP x hx) hcx
      · refine ih (tryMatchReqFn cm inter) t ?_ h
        intro y hy
        obtain ⟨x, hx, hcx, _⟩ := tryMatchReqFn_mem cm inter y hy
        exact hcm x y (hP x hx) hcx

/-- A `foldl` of name inserts only grows the suggestion set. -/
theorem foldl_insert_name_subset (src : Str) :
    ∀ (l : List option_t) (init : Finset Str),
      init ⊆ l.foldl (fun acc opt =>
        insert (opt.name_as_string src) acc) init := by
  intro l
  induction l with
  | nil => intro init x hx; exact hx
  | cons o rest ih =>
    intro init
    rw [List.foldl_cons]
    exact fun x hx => ih (insert (o.name_as_string src) init)
      (Finset.mem_insert_of_mem hx)

/-- A `foldl` of name inserts adds only the folded options' names. -/
theorem foldl_insert_name_mem (src : Str) :
    ∀ (l : List option_t) (init : Finset Str) (x : Str),
      x ∈ l.foldl (fun acc opt =>
        insert (opt.name_as_string src) acc) init →
      x ∈ init ∨ ∃ o ∈ l, x = o.name_as_string src := by
  intro l
  induction l with
  | nil => intro init x hx; exact Or.inl hx
  | cons o rest ih =>
    intro init x hx
    rw [List.foldl_cons] at hx
    rcases ih (insert (o.name_as_string src) init) x hx with h | ⟨o', ho', he⟩
    · rcases Finset.mem_insert.mp h with rfl | h'
      · exact Or.inr ⟨o, List.mem_cons_self _ _, rfl⟩
      · exact Or.inl h'
    · exact Or.inr ⟨o', List.mem_cons_of_mem _ ho', he⟩

/-- `nodeOk` for a `some` child from a closure over the optional list. -/
theorem nodeOk_of_someO {src : Str} {c : node} {pool : Finset Str}
    (h : ∀ x ∈ nodeSuggListO src (some c), x ∈ pool) :
    nodeOk src c pool := by
  intro x hx
  refine h x ?_
  simp only [nodeSuggListO]
  exact hx

/-- `nodeOk` of a `usage` node passes to both children. -/
theorem nodeOk_usage_children {src : Str} {p : range_t} {al nu : Option node}
    {pool : Finset Str} (h : nodeOk src (node.usage p al nu) pool) :
    (∀ x ∈ nodeSuggListO src al, x ∈ pool) ∧
      (∀ x ∈ nodeSuggListO src nu, x ∈ pool) := by
  constructor <;> intro x hx <;> refine h x ?_ <;> simp only [nodeSuggList]
  · exact List.mem_append_left _ hx
  · exact List.mem_append_right _ hx

/-- `nodeOk` of an `expression_list` node passes to both children. -/
theorem nodeOk_elist_children {src : Str} {e oel : Option node}
    {pool : Finset Str} (h : nodeOk src (node.expression_list e oel) pool) :
    (∀ x ∈ nodeSuggListO src e, x ∈ pool) ∧
      (∀ x ∈ nodeSuggListO src oel, x ∈ pool) := by
  constructor <;> intro x hx <;> refine h x ?_ <;> simp only [nodeSuggList]
  · exact List.mem_append_left _ hx
  · exact List.mem_append_right _ hx

/-- `nodeOk` of an `opt_expression_list` node passes to its child. -/
theorem nodeOk_oelist_child {src : Str} {el : Option node}
    {pool : Finset Str} (h : nodeOk src (node.opt_expression_list el) pool) :
    ∀ x ∈ nodeSuggListO src el, x ∈ pool := by
  intro x hx
  refine h x ?_
  simp only [nodeSuggList]
  exact hx

/-- `nodeOk` of an `alternation_list` node passes to both children. -/
theorem nodeOk_alist_children {src : Str} {el oc : Option node}
    {pool : Finset Str} (h : nodeOk src (node.alternation_list el oc) pool) :
    (∀ x ∈ nodeSuggListO src el, x ∈ pool) ∧
      (∀ x ∈ nodeSuggListO src oc, x ∈ pool) := by
  constructor <;> intro x hx <;> refine h x ?_ <;> simp only [nodeSuggList]
  · exact List.mem_append_left _ hx
  · exact List.mem_append_right _ hx

/-- `nodeOk` of an `or_continuation` node passes to its child. -/
theorem nodeOk_orc_child {src : Str} {al : Option node}
    {pool : Finset Str} (h : nodeOk src (node.or_continuation al) pool) :
    ∀ x ∈ nodeSuggListO src al, x ∈ pool := by
  intro x hx
  refine h x ?_
  simp only [nodeSuggList]
  exact hx

/-- `nodeOk` of an `expression` node passes to both children. -/
theorem nodeOk_expr_children {src : Str} {pr : Nat} {ell : Bool}
    {sc al : Option node} {pool : Finset Str}
    (h : nodeOk src (node.expression pr ell sc al) pool) :
    (∀ x ∈ nodeSuggListO src sc, x ∈ pool) ∧
      (∀ x ∈ nodeSuggListO src al, x ∈ pool) := by
  constructor <;> intro x hx <;> refine h x ?_ <;> simp only [nodeSuggList]
  · exact List.mem_append_left _ hx
  · exact List.mem_append_right _ hx

/-- `nodeOk` of a `simple_clause` node passes to its three children. -/
theorem nodeOk_sclause_children {src : Str} {oc fc vc : Option node}
    {pool : Finset Str}
    (h : nodeOk src (node.simple_clause oc fc vc) pool) :
    (∀ x ∈ nodeSuggListO src oc, x ∈ pool) ∧
      (∀ x ∈ nodeSuggListO src fc, x ∈ pool) ∧
      (∀ x ∈ nodeSuggListO src vc, x ∈ pool) := by
  refine ⟨?_, ?_, ?_⟩ <;> intro x hx <;> refine h x ?_ <;>
    simp only [nodeSuggList]
  · exact List.mem_append_left _ (List.mem_append_left _ hx)
  · exact List.mem_append_left _ (List.mem_append_right _ hx)
  · exact List.mem_append_right _ hx

/-- `nodeOk` of an `option_clause` puts the option's name in the pool. -/
theorem nodeOk_oclause_name {src : Str} {o : option_t} {pool : Finset Str}
    (h : nodeOk src (node.option_clause o) pool) :
    o.name_as_string src ∈ pool := by
  refine h _ ?_
  simp only [nodeSuggList, List.mem_singleton]

/-- `nodeOk` of a `fixed_clause` puts the literal word in the pool. -/
theorem nodeOk_fclause_word {src : Str} {w : range_t} {pool : Finset Str}
    (h : nodeOk src (node.fixed_clause w) pool) :
    substr src w ∈ pool := by
  refine h _ ?_
  simp only [nodeSuggList, List.mem_singleton]

/-- `nodeOk` of a `variable_clause` puts the variable word in the pool. -/
theorem nodeOk_vclause_word {src : Str} {w : range_t} {pool : Finset Str}
    (h : nodeOk src (node.variable_clause w) pool) :
    substr src w ∈ pool := by
  refine h _ ?_
  simp only [nodeSuggList, List.mem_singleton]

/-- The matcher never decreases `progress()`: every successor state of
`matchNode` has progress at least that of its source state. -/
theorem matchNode_mono (ctx : mctx) :
    ∀ (fuel : Nat) (isb : Bool) (n : node) (s t : match_state_t),
      t ∈ matchNode ctx fuel isb n s → s.progress ≤ t.progress := by
  intro fuel
  induction fuel with
  | zero => intro isb n s t ht; exact absurd ht (List.not_mem_nil t)
  | succ fuel ih =>
    intro isb n s t ht
    cases n with
    | usage prog al nu =>
      simp only [matchNode] at ht
      by_cases hm : ctx.has_more_positionals s = true
      · rw [if_neg (not_not_intro hm)] at ht
        by_cases hpe : prog.isEmpty = true
        · rw [if_pos hpe] at ht
          exact absurd ht (List.not_mem_nil t)
        · rw [if_neg hpe] at ht
          rcases List.mem_append.mp ht with h | h
          · split at h
            · refine le_trans ?_ (ih isb _ _ t h)
              simp only [match_state_t.progress]
              omega
            · simp only [List.mem_singleton] at h
              subst h
              simp only [match_state_t.progress]
              omega
          · split at h
            · exact ih isb _ s t h
            · exact absurd h (List.not_mem_nil t)
      · rw [if_pos hm] at ht
        exact absurd ht (List.not_mem_nil t)
    | expression_list e oel =>
      simp only [matchNode] at ht
      split at ht
      · obtain ⟨st, hst, htt⟩ := List.mem_flatMap.mp ht
        refine le_trans ?_ (ih isb _ st t htt)
        split at hst
        · exact ih isb _ s st hst
        · exact absurd hst (List.not_mem_nil st)
      · exact absurd ht (List.not_mem_nil t)
    | opt_expression_list el =>
      simp only [matchNode] at ht
      split at ht
      · exact ih isb _ s t ht
      · simp only [List.mem_singleton] at ht
        subst ht
        exact le_refl _
    | alternation_list el oc =>
      simp only [matchNode] at ht
      rcases List.mem_append.mp ht with h | h
      · split at h
        · exact ih isb _ s t h
        · exact absurd h (List.not_mem_nil t)
      · split at h
        · exact ih isb _ s t h
        · exact absurd h (List.not_mem_nil t)
    | or_continuation al =>
      simp only [matchNode] at ht
      split at ht
      · exact ih isb _ s t ht
      · exact absurd ht (List.not_mem_nil t)
    | expression production ell sc al =>
      simp only [matchNode] at ht
      by_cases hp0 : production = 0
      · rw [if_pos hp0] at ht
        by_cases hell : ell = true
        · rw [if_pos hell] at ht
          rcases List.mem_append.mp ht with h | h
          · split at h
            · exact ih isb _ s t h
            · exact absurd h (List.not_mem_nil t)
          · refine ellipLoopFn_pres _ (fun x => s.progress ≤ x.progress)
              ?_ _ _ t ?_ h
            · intro a b ha hb
              split at hb
              · exact le_trans ha (ih isb _ a b hb)
              · exact absurd hb (List.not_mem_nil b)
            · intro x hx
              split at hx
              · exact ih isb _ s x hx
              · exact absurd hx (List.not_mem_nil x)
        · rw [if_neg hell] at ht
          split at ht
          · exact ih isb _ s t ht
          · exact absurd ht (List.not_mem_nil t)
      · rw [if_neg hp0] at ht
        by_cases hp1 : production = 1
        · rw [if_pos hp1] at ht
          by_cases hell : ell = true
          · rw [if_pos hell] at ht
            rcases List.mem_append.mp ht with h | h
            · split at h
              · exact ih false _ s t h
              · exact absurd h (List.not_mem_nil t)
            · refine ellipLoopFn_pres _ (fun x => s.progress ≤ x.progress)
                ?_ _ _ t ?_ h
              · intro a b ha hb
                split at hb
                · exact le_trans ha (ih false _ a b hb)
                · exact absurd hb (List.not_mem_nil b)
              · intro x hx
                split at hx
                · exact ih false _ s x hx
                · exact absurd hx (List.not_mem_nil x)
          · rw [if_neg hell] at ht
            split at ht
            · exact ih false _ s t ht
            · exact absurd ht (List.not_mem_nil t)
        · rw [if_neg hp1] at ht
          by_cases hp2 : production = 2
          · rw [if_pos hp2] at ht
            rcases List.mem_append.mp ht with h | h
            · by_cases hell : ell = true
              · rw [if_pos hell] at h
                rcases List.mem_append.mp h with h2 | h2
                · split at h2
                  · exact ih true _ s t h2
                  · exact absurd h2 (List.not_mem_nil t)
                · refine ellipLoopFn_pres _ (fun x => s.progress ≤ x.progress)
                    ?_ _ _ t ?_ h2
                  · intro a b ha hb
                    split at hb
                    · exact le_trans ha (ih true _ a b hb)
                    · exact absurd hb (List.not_mem_nil b)
                  · intro x hx
                    split at hx
                    · exact ih true _ s x hx
                    · exact absurd hx (List.not_mem_nil x)
              · rw [if_neg hell] at h
                split at h
                · exact ih true _ s t h
                · exact absurd h (List.not_mem_nil t)
            · simp only [List.mem_singleton] at h
              subst h
              exact le_refl _
          · rw [if_neg hp2] at ht
            by_cases hp3 : production = 3
            · rw [if_pos hp3] at ht
              split at ht
              · simp only [List.mem_singleton] at ht
                subst ht
                by_cases hg : ctx.flags.generate_suggestions = true
                · rw [if_pos hg]
                  simp only [match_state_t.progress]
                  have := Finset.card_le_card (foldl_insert_name_subset
                    ctx.src ctx.shortcut_options s.suggested_next_arguments)
                  omega
                · rw [if_neg hg]
              · exact match_options_mono ctx ctx.shortcut_options s t ht
            · rw [if_neg hp3] at ht
              exact absurd ht (List.not_mem_nil t)
    | simple_clause oc fc vc =>
      simp only [matchNode] at ht
      split at ht
      · exact ih isb _ s t ht
      · split at ht
        · exact ih isb _ s t ht
        · split at ht
          · exact ih isb _ s t ht
          · exact absurd ht (List.not_mem_nil t)
    | option_clause opt =>
      simp only [matchNode] at ht
      split at ht
      · by_cases hoc : (isb = true ∨ ctx.flags.match_allow_incomplete = true)
        · rw [if_pos hoc] at ht
          simp only [List.mem_singleton] at ht
          subst ht
          by_cases hg : ctx.flags.generate_suggestions = true
          · rw [if_pos hg]
            simp only [match_state_t.progress]
            have := Finset.card_le_card (Finset.subset_insert
              (opt.name_as_string ctx.src) s.suggested_next_arguments)
            omega
          · rw [if_neg hg]
        · rw [if_neg hoc] at ht
          exact absurd ht (List.not_mem_nil t)
      · exact match_options_mono ctx [opt] s t ht
    | fixed_clause w =>
      simp only [matchNode] at ht
      by_cases hm : ctx.has_more_positionals s = true
      · rw [if_pos hm] at ht
        split at ht
        · simp only [List.mem_singleton] at ht
          subst ht
          simp only [match_state_t.progress]
          omega
        · exact absurd ht (List.not_mem_nil t)
      · rw [if_neg hm] at ht
        by_cases hmi : ctx.flags.match_allow_incomplete = true
        · rw [if_pos hmi] at ht
          simp only [List.mem_singleton] at ht
          subst ht
          by_cases hg : ctx.flags.generate_suggestions = true
          · rw [if_pos hg]
            simp only [match_state_t.progress]
            have := Finset.card_le_card (Finset.subset_insert
              (substr ctx.src w) s.suggested_next_arguments)
            omega
          · rw [if_neg hg]
        · rw [if_neg hmi] at ht
          exact absurd ht (List.not_mem_nil t)
    | variable_clause w =>
      simp only [matchNode] at ht
      by_cases hm : ctx.has_more_positionals s = true
      · rw [if_pos hm] at ht
        simp only [List.mem_singleton] at ht
        subst ht
        simp only [match_state_t.progress]
        omega
      · rw [if_neg hm] at ht
        by_cases hmi : ctx.flags.match_allow_incomplete = true
        · rw [if_pos hmi] at ht
          simp only [List.mem_singleton] at ht
          subst ht
          by_cases hg : ctx.flags.generate_suggestions = true
          · rw [if_pos hg]
            simp only [match_state_t.progress]
            have := Finset.card_le_card (Finset.subset_insert
              (substr ctx.src w) s.suggested_next_arguments)
            omega
          · rw [if_neg hg]
        · rw [if_neg hmi] at ht
          exact absurd ht (List.not_mem_nil t)

/-- The matcher preserves the state invariant: fixed consumed-bitset
length, bounded positional cursor, suggestions inside the pool. -/
theorem matchNode_inv (ctx : mctx) (hsc : shortcutsOk ctx) :
    ∀ (fuel : Nat) (isb : Bool) (n : node) (s t : match_state_t),
      nodeOk ctx.src n ctx.pool → stateInv ctx s →
      t ∈ matchNode ctx fuel isb n s → stateInv ctx t := by
  intro fuel
  induction fuel with
  | zero => intro isb n s t _ _ ht; exact absurd ht (List.not_mem_nil t)
  | succ fuel ih =>
    intro isb n s t hn hs ht
    cases n with
    | usage prog al nu =>
      simp only [matchNode] at ht
      by_cases hm : ctx.has_more_positionals s = true
      · rw [if_neg (not_not_intro hm)] at ht
        have hlt : s.next_positional_index < ctx.positionals.length := by
          simpa [mctx.has_more_positionals] using hm
        by_cases hpe : prog.isEmpty = true
        · rw [if_pos hpe] at ht
          exact absurd ht (List.not_mem_nil t)
        · rw [if_neg hpe] at ht
          rcases List.mem_append.mp ht with h | h
          · split at h
            · exact ih isb _
                ({ s with next_positional_index :=
                  s.next_positional_index + 1 }) t
                (nodeOk_of_someO (nodeOk_usage_children hn).1)
                ⟨hs.1, Nat.succ_le_of_lt hlt, hs.2.2⟩ h
            · simp only [List.mem_singleton] at h
              subst h
              exact ⟨hs.1, Nat.succ_le_of_lt hlt, hs.2.2⟩
          · split at h
            · exact ih isb _ s t
                (nodeOk_of_someO (nodeOk_usage_children hn).2) hs h
            · exact absurd h (List.not_mem_nil t)
      · rw [if_pos hm] at ht
        exact absurd ht (List.not_mem_nil t)
    | expression_list e oel =>
      simp only [matchNode] at ht
      split at ht
      · obtain ⟨st, hst, htt⟩ := List.mem_flatMap.mp ht
        have hstinv : stateInv ctx st := by
          split at hst
          · exact ih isb _ s st
              (nodeOk_of_someO (nodeOk_elist_children hn).1) hs hst
          · exact absurd hst (List.not_mem_nil st)
        exact ih isb _ st t
          (nodeOk_of_someO (nodeOk_elist_children hn).2) hstinv htt
      · exact absurd ht (List.not_mem_nil t)
    | opt_expression_list el =>
      simp only [matchNode] at ht
      split at ht
      · exact ih isb _ s t (nodeOk_of_someO (nodeOk_oelist_child hn)) hs ht
      · simp only [List.mem_singleton] at ht
        subst ht
        exact hs
    | alternation_list el oc =>
      simp only [matchNode] at ht
      rcases List.mem_append.mp ht with h | h
      · split at h
        · exact ih isb _ s t
            (nodeOk_of_someO (nodeOk_alist_children hn).1) hs h
        · exact absurd h (List.not_mem_nil t)
      · split at h
        · exact ih isb _ s t
            (nodeOk_of_someO (nodeOk_alist_children hn).2) hs h
        · exact absurd h (List.not_mem_nil t)
    | or_continuation al =>
      simp only [matchNode] at ht
      split at ht
      · exact ih isb _ s t (nodeOk_of_someO (nodeOk_orc_child hn)) hs ht
      · exact absurd ht (List.not_mem_nil t)
    | expression production ell sc al =>
      simp only [matchNode] at ht
      by_cases hp0 : production = 0
      · rw [if_pos hp0] at ht
        by_cases hell : ell = true
        · rw [if_pos hell] at ht
          rcases List.mem_append.mp ht with h | h
          · split at h
            · exact ih isb _ s t
                (nodeOk_of_someO (nodeOk_expr_children hn).1) hs h
            · exact absurd h (List.not_mem_nil t)
          · refine ellipLoopFn_pres _ (stateInv ctx) ?_ _ _ t ?_ h
            · intro a b ha hb
              split at hb
              · exact ih isb _ a b
                  (nodeOk_of_someO (nodeOk_expr_children hn).1) ha hb
              · exact absurd hb (List.not_mem_nil b)
            · intro x hx
              split at hx
              · exact ih isb _ s x
                  (nodeOk_of_someO (nodeOk_expr_children hn).1) hs hx
              · exact absurd hx (List.not_mem_nil x)
        · rw [if_neg hell] at ht
          split at ht
          · exact ih isb _ s t
              (nodeOk_of_someO (nodeOk_expr_children hn).1) hs ht
          · exact absurd ht (List.not_mem_nil t)
      · rw [if_neg hp0] at ht
        by_cases hp1 : production = 1
        · rw [if_pos hp1] at ht
          by_cases hell : ell = true
          · rw [if_pos hell] at ht
            rcases List.mem_append.mp ht with h | h
            · split at h
              · exact ih false _ s t
                  (nodeOk_of_someO (nodeOk_expr_children hn).2) hs h
              · exact absurd h (List.not_mem_nil t)
            · refine ellipLoopFn_pres _ (stateInv ctx) ?_ _ _ t ?_ h
              · intro a b ha hb
                split at hb
                · exact ih false _ a b
                    (nodeOk_of_someO (nodeOk_expr_children hn).2) ha hb
                · exact absurd hb (List.not_mem_nil b)
              · intro x hx
                split at hx
                · exact ih false _ s x
                    (nodeOk_of_someO (nodeOk_expr_children hn).2) hs hx
                · exact absurd hx (List.not_mem_nil x)
          · rw [if_neg hell] at ht
            split at ht
            · exact ih false _ s t
                (nodeOk_of_someO (nodeOk_expr_children hn).2) hs ht
            · exact absurd ht (List.not_mem_nil t)
        · rw [if_neg hp1] at ht
          by_cases hp2 : production = 2
          · rw [if_pos hp2] at ht
            rcases List.mem_append.mp ht with h | h
            · by_cases hell : ell = true
              · rw [if_pos hell] at h
                rcases List.mem_append.mp h with h2 | h2
                · split at h2
                  · exact ih true _ s t
                      (nodeOk_of_someO (nodeOk_expr_children hn).2) hs h2
                  · exact absurd h2 (List.not_mem_nil t)
                · refine ellipLoopFn_pres _ (stateInv ctx) ?_ _ _ t ?_ h2
                  · intro a b ha hb
                    split at hb
                    · exact ih true _ a b
                        (nodeOk_of_someO (nodeOk_expr_children hn).2) ha hb
                    · exact absurd hb (List.not_mem_nil b)
                  · intro x hx
                    split at hx
                    · exact ih true _ s x
                        (nodeOk_of_someO (nodeOk_expr_children hn).2) hs hx
                    · exact absurd hx (List.not_mem_nil x)
              · rw [if_neg hell] at h
                split at h
                · exact ih true _ s t
                    (nodeOk_of_someO (nodeOk_expr_children hn).2) hs h
                · exact absurd h (List.not_mem_nil t)
            · simp only [List.mem_singleton] at h
              subst h
              exact hs
          · rw [if_neg hp2] at ht
            by_cases hp3 : production = 3
            · rw [if_pos hp3] at ht
              split at ht
              · simp only [List.mem_singleton] at ht
                subst ht
                by_cases hg : ctx.flags.generate_suggestions = true
                · rw [if_pos hg]
                  refine ⟨hs.1, hs.2.1, ?_⟩
                  intro x hx
                  rcases foldl_insert_name_mem ctx.src ctx.shortcut_options
                    s.suggested_next_arguments x hx with h | ⟨o, ho, he⟩
                  · exact hs.2.2 h
                  · exact he ▸ hsc o ho
                · rw [if_neg hg]
                  exact hs
              · exact match_options_inv ctx ctx.shortcut_options s t hsc
                  hs ht
            · rw [if_neg hp3] at ht
              exact absurd ht (List.not_mem_nil t)
    | simple_clause oc fc vc =>
      simp only [matchNode] at ht
      split at ht
      · exact ih isb _ s t
          (nodeOk_of_someO (nodeOk_sclause_children hn).1) hs ht
      · split at ht
        · exact ih isb _ s t
            (nodeOk_of_someO (nodeOk_sclause_children hn).2.1) hs ht
        · split at ht
          · exact ih isb _ s t
              (nodeOk_of_someO (nodeOk_sclause_children hn).2.2) hs ht
          · exact absurd ht (List.not_mem_nil t)
    | option_clause opt =>
      simp only [matchNode] at ht
      split at ht
      · by_cases hoc : (isb = true ∨ ctx.flags.match_allow_incomplete = true)
        · rw [if_pos hoc] at ht
          simp only [List.mem_singleton] at ht
          subst ht
          by_cases hg : ctx.flags.generate_suggestions = true
          · rw [if_pos hg]
            refine ⟨hs.1, hs.2.1, ?_⟩
            intro x hx
            rcases Finset.mem_insert.mp hx with rfl | h
            · exact nodeOk_oclause_name hn
            · exact hs.2.2 h
          · rw [if_neg hg]
            exact hs
        · rw [if_neg hoc] at ht
          exact absurd ht (List.not_mem_nil t)
      · refine match_options_inv ctx [opt] s t ?_ hs ht
        intro o ho
        simp only [List.mem_singleton] at ho
        subst ho
        exact nodeOk_oclause_name hn
    | fixed_clause w =>
      simp only [matchNode] at ht
      by_cases hm : ctx.has_more_positionals s = true
      · rw [if_pos hm] at ht
        have hlt : s.next_positional_index < ctx.positionals.length := by
          simpa [mctx.has_more_positionals] using hm
        split at ht
        · simp only [List.mem_singleton] at ht
          subst ht
          exact ⟨hs.1, Nat.succ_le_of_lt hlt, hs.2.2⟩
        · exact absurd ht (List.not_mem_nil t)
      · rw [if_neg hm] at ht
        by_cases hmi : ctx.flags.match_allow_incomplete = true
        · rw [if_pos hmi] at ht
          simp only [List.mem_singleton] at ht
          subst ht
          by_cases hg : ctx.flags.generate_suggestions = true
          · rw [if_pos hg]
            refine ⟨hs.1, hs.2.1, ?_⟩
            intro x hx
            rcases Finset.mem_insert.mp hx with rfl | h
            · exact nodeOk_fclause_word hn
            · exact hs.2.2 h
          · rw [if_neg hg]
            exact hs
        · rw [if_neg hmi] at ht
          exact absurd ht (List.not_mem_nil t)
    | variable_clause w =>
      simp only [matchNode] at ht
      by_cases hm : ctx.has_more_positionals s = true
      · rw [if_pos hm] at ht
        have hlt : s.next_positional_index < ctx.positionals.length := by
          simpa [mctx.has_more_positionals] using hm
        simp only [List.mem_singleton] at ht
        subst ht
        exact ⟨hs.1, Nat.succ_le_of_lt hlt, hs.2.2⟩
      · rw [if_neg hm] at ht
        by_cases hmi : ctx.flags.match_allow_incomplete = true
        · rw [if_pos hmi] at ht
          simp only [List.mem_singleton] at ht
          subst ht
          by_cases hg : ctx.flags.generate_suggestions = true
          · rw [if_pos hg]
            refine ⟨hs.1, hs.2.1, ?_⟩
            intro x hx
            rcases Finset.mem_insert.mp hx with rfl | h
            · exact nodeOk_vclause_word hn
            · exact hs.2.2 h
          · rw [if_neg hg]
            exact hs
        · rw [if_neg hmi] at ht
          exact absurd ht (List.not_mem_nil t)

/-- Strict-progress iteration dies within the progress bound: whenever the
child match is monotone and invariant-preserving, `d` rounds of the
filtered re-application starting from states of progress at least `p`
leave nothing once `p + d` passes the bound. -/
theorem tryMatch_iterate_empty (ctx : mctx)
    (cm : match_state_t → List match_state_t)
    (hmono : ∀ a b, b ∈ cm a → a.progress ≤ b.progress)
    (hinv : ∀ a b, stateInv ctx a → b ∈ cm a → stateInv ctx b) :
    ∀ (d p : Nat) (inter : List match_state_t),
      (∀ x ∈ inter, stateInv ctx x ∧ p ≤ x.progress) →
      progressBound ctx + 1 ≤ p + d →
      (tryMatchReqFn cm)^[d] inter = [] := by
  intro d
  induction d with
  | zero =>
    intro p inter hx hb
    cases inter with
    | nil => rfl
    | cons a rest =>
      obtain ⟨ha, hp⟩ := hx a (List.mem_cons_self _ _)
      have hab := progress_le_bound ctx a ha
      exact absurd hb (by omega)
  | succ d ihd =>
    intro p inter hx hb
    rw [Function.iterate_succ_apply]
    refine ihd (p + 1) (tryMatchReqFn cm inter) ?_ (by omega)
    intro y hy
    obtain ⟨x, hxm, hcx, hne⟩ := tryMatchReqFn_mem cm inter y hy
    obtain ⟨hxi, hxp⟩ := hx x hxm
    refine ⟨hinv x y hxi hcx, ?_⟩
    have hle := hmono x y hcx
    have hne' : x.progress ≠ y.progress := fun he => hne (he.symm)
    omega

/-- C3: in the ellipsis repetitions of the `expression` productions the
child match is re-applied through the strict-progress filter of
`try_match`: every kept state comes from a state of the previous
generation via the child match and has strictly greater `progress()`
(`next_positional_index` + consumed-option popcount + suggestion count);
and the repetition terminates: within the loop fuel the filtered
re-application reaches the empty intermediate list, for any doc tree,
argv, and flags, from any invariant-satisfying state set. -/
theorem ellipsis_strict_progress_and_terminates (ctx : mctx) (fuel : Nat)
    (isb : Bool) (c : node) (inter : List match_state_t)
    (hsc : shortcutsOk ctx) (hn : nodeOk ctx.src c ctx.pool)
    (hi : ∀ x ∈ inter, stateInv ctx x) :
    (∀ t ∈ tryMatchReqFn (matchNode ctx fuel isb c) inter,
      ∃ s ∈ inter, t ∈ matchNode ctx fuel isb c s ∧
        s.progress < t.progress) ∧
    ∃ k, k ≤ loopFuel ctx ∧
      (tryMatchReqFn (matchNode ctx fuel isb c))^[k] inter = [] := by
  constructor
  · intro t ht
    obtain ⟨s, hsm, hcs, hne⟩ :=
      tryMatchReqFn_mem (matchNode ctx fuel isb c) inter t ht
    exact ⟨s, hsm, hcs,
      lt_of_le_of_ne (matchNode_mono ctx fuel isb c s t hcs)
        (Ne.symm hne)⟩
  · refine ⟨progressBound ctx + 1, ?_, ?_⟩
    · unfold loopFuel progressBound
      omega
    · exact tryMatch_iterate_empty ctx (matchNode ctx fuel isb c)
        (fun a b hb => matchNode_mono ctx fuel isb c a b hb)
        (fun a b ha hb => matchNode_inv ctx hsc fuel isb c a b hn ha hb)
        (progressBound ctx + 1) 0 inter
        (fun x hx => ⟨hi x hx, Nat.zero_le _⟩) (by omega)

/-- Witness for C3 at the concrete example: the shortcut and tree pools
check out, and iterating the strict-progress filter from the initial
state empties within the loop fuel. -/
theorem ellipsis_strict_progress_and_terminates_witness :
    shortcutsOk exCtx ∧ nodeOk exCtx.src exTree exCtx.pool ∧
    (∃ k, k ≤ loopFuel exCtx ∧
      (tryMatchReqFn (matchNode exCtx (ndepth exTree + 1) false exTree))^[k]
        [{ consumed_options := List.replicate exSep.resolved.length false }]
        = []) :=
  ⟨by decide, by decide,
    (ellipsis_strict_progress_and_terminates exCtx (ndepth exTree + 1)
      false exTree
      [{ consumed_options := List.replicate exSep.resolved.length false }]
      (by decide) (by decide) (by decide)).2⟩

end DocoptFish
